import Mathlib

/-!
Verification of the DocuBridge OCR field-extraction engine.

This file gives a shallow embedding of the core functions of
`src/lib/ocr.ts` (similarity scorer, text normalization, field matcher,
image preprocessor, text-based field extractor, spatial field extractor,
section list extractors, and the `parseEMRText` orchestrator) and proves
or refutes the specified properties about them.

Modelling conventions:
* JavaScript strings are modelled as `List Char` (`JStr`); the character
  classes `\w` and `\s` follow their JavaScript (ASCII resp. Unicode
  white-space) definitions, and `toLowerCase` is modelled on the ASCII
  range.
* JavaScript numbers are modelled as exact rationals; where the code can
  produce `NaN` or infinities (division by zero on the float path), the
  type `JVal` with explicit `nan`, `pinf`, `ninf` constructors is used.
* Mutable arrays are modelled by functional update (`jsSet`), and the
  JavaScript stable `Array.prototype.sort` by insertion sort, which has
  the same (unique) sorted-and-stable result.
-/

/-- JavaScript strings are modelled as lists of characters. -/
abbrev JStr := List Char

/-- Character-list view of a Lean string literal. -/
def str (s : String) : JStr := s.data

/-- The JavaScript `\s` (white-space) character class. -/
def isJsWS (c : Char) : Bool :=
  c == ' ' || c == '\t' || c == '\n' || c == '\x0b' || c == '\x0c' || c == '\r' ||
  c.toNat == 0xa0 || c.toNat == 0x1680 || (0x2000 ≤ c.toNat && c.toNat ≤ 0x200a) ||
  c.toNat == 0x2028 || c.toNat == 0x2029 || c.toNat == 0x202f || c.toNat == 0x205f ||
  c.toNat == 0x3000 || c.toNat == 0xfeff

/-- The JavaScript `\w` (word) character class `[A-Za-z0-9_]`. -/
def isWordChar (c : Char) : Bool :=
  ('A' ≤ c && c ≤ 'Z') || ('a' ≤ c && c ≤ 'z') || ('0' ≤ c && c ≤ '9') || c == '_'

/-- `String.prototype.toLowerCase`, modelled on the ASCII range. -/
def jsToLower (c : Char) : Char :=
  if 'A' ≤ c && c ≤ 'Z' then Char.ofNat (c.toNat + 32) else c

/-- `String.prototype.trim`: strip white space from both ends. -/
def jsTrim (s : JStr) : JStr :=
  ((s.dropWhile (fun c => isJsWS c)).reverse.dropWhile (fun c => isJsWS c)).reverse

/-- Helper for `collapseWS`: the flag records whether the previous
character was white space (so the current run is already represented). -/
def collapseWSAux : Bool → JStr → JStr
  | _, [] => []
  | prevWS, c :: cs =>
    if isJsWS c then
      if prevWS then collapseWSAux true cs else ' ' :: collapseWSAux true cs
    else c :: collapseWSAux false cs

/-- Replace each maximal run of white space by a single space:
the `replace(/\s+/g, ' ')` step of `normalizeText`. -/
def collapseWS (s : JStr) : JStr := collapseWSAux false s

/-- `normalizeText` from ocr.ts: lowercase, strip everything outside
`[\w\s]`, collapse white-space runs to single spaces, trim. -/
def normalizeText (text : JStr) : JStr :=
  jsTrim (collapseWS ((text.map jsToLower).filter (fun c => isWordChar c || isJsWS c)))

/-- Assignment `l[j] = v` on a JavaScript array: in the algorithms
embedded here the index is always at most the current length, so the
growth case is a single append. -/
def jsSet (l : List ℕ) (j : ℕ) (v : ℕ) : List ℕ :=
  if j < l.length then l.set j v else l ++ [v]

/-- One iteration of the inner `j` loop of `levenshteinDistance`.
The state is the `costs` array together with `lastValue`. -/
def levInnerStep (s1 s2 : JStr) (i : ℕ) (st : List ℕ × ℕ) (j : ℕ) : List ℕ × ℕ :=
  if i = 0 then (jsSet st.1 j j, st.2)
  else if 0 < j then
    let newValue0 := st.1.getD (j - 1) 0
    let newValue :=
      if s1.getD (j - 1) ' ' ≠ s2.getD (i - 1) ' ' then
        min (min newValue0 st.2) (st.1.getD j 0) + 1
      else newValue0
    (jsSet st.1 (j - 1) st.2, newValue)
  else st

/-- One iteration of the outer `i` loop of `levenshteinDistance`:
run the inner loop with `lastValue` initialised to `i`, then (for
`i > 0`) store `lastValue` into `costs[s1.length]`. -/
def levRow (s1 s2 : JStr) (costs : List ℕ) (i : ℕ) : List ℕ :=
  let st := (List.range (s1.length + 1)).foldl (levInnerStep s1 s2 i) (costs, i)
  if 0 < i then jsSet st.1 s1.length st.2 else st.1

/-- `levenshteinDistance` from ocr.ts: the rolling-array dynamic
program, started from the empty `costs` array. -/
def levenshteinDistance (s1 s2 : JStr) : ℕ :=
  ((List.range (s2.length + 1)).foldl (levRow s1 s2) []).getD s1.length 0

/-- `similarity` from ocr.ts. -/
def similarity (s1 s2 : JStr) : ℚ :=
  let longer := if s1.length > s2.length then s1 else s2
  let shorter := if s1.length > s2.length then s2 else s1
  if longer.length = 0 then 1
  else ((longer.length : ℚ) - levenshteinDistance longer shorter) / longer.length

/-- Does the first list start with the second one? -/
def listStartsWith : JStr → JStr → Bool
  | _, [] => true
  | [], _ :: _ => false
  | c :: cs, d :: ds => c == d && listStartsWith cs ds

/-- `a.includes(b)` on JavaScript strings: substring containment. -/
def jsIncludes (s sub : JStr) : Bool :=
  match s with
  | [] => listStartsWith [] sub
  | c :: cs => listStartsWith (c :: cs) sub || jsIncludes cs sub

/-- `findBestMatch` from ocr.ts: exact normalized equality, then
substring containment in either direction, then fuzzy similarity
against the threshold; each of the three passes scans the variants in
order and returns on the first hit, which is equivalent to the
disjunctions below. -/
def findBestMatch (text : JStr) (variants : List JStr) (threshold : ℚ) : Bool :=
  let normalized := normalizeText text
  if variants.any (fun v => normalized = normalizeText v) then true
  else if variants.any (fun v =>
      let nv := normalizeText v
      jsIncludes normalized nv || jsIncludes nv normalized) then true
  else variants.any (fun v => decide (threshold ≤ similarity normalized (normalizeText v)))

/-- `text.split('\n')`: split at each newline, keeping empty pieces. -/
def splitNl : JStr → List JStr
  | [] => [[]]
  | c :: cs =>
    if c = '\n' then [] :: splitNl cs
    else
      match splitNl cs with
      | [] => [[c]]
      | p :: ps => (c :: p) :: ps

/-- `text.split(/\s+/)`: split at maximal white-space runs (the flag
records whether the previous character was white space). -/
def splitWSAux : Bool → JStr → List JStr
  | _, [] => [[]]
  | prevWS, c :: cs =>
    if isJsWS c then
      if prevWS then splitWSAux true cs
      else [] :: splitWSAux true cs
    else
      match splitWSAux false cs with
      | [] => [[c]]
      | p :: ps => (c :: p) :: ps

/-- Split at every occurrence of one of the given separator characters,
keeping empty pieces (e.g. `split(/[;,]/)`). -/
def splitOnAny (seps : List Char) : JStr → List JStr
  | [] => [[]]
  | c :: cs =>
    if seps.contains c then [] :: splitOnAny seps cs
    else
      match splitOnAny seps cs with
      | [] => [[c]]
      | p :: ps => (c :: p) :: ps

/-- ASCII letter test, the `[A-Za-z]` class. -/
def isAsciiLetter (c : Char) : Bool := ('A' ≤ c && c ≤ 'Z') || ('a' ≤ c && c ≤ 'z')

/-- The medication section header variants of `extractMedications`. -/
def medHeaders : List JStr :=
  [str "medications", str "meds", str "current medications", str "rx",
   str "prescriptions", str "drug list", str "medicines", str "medication list"]

/-- Keywords ending the medication section
(`/^(lab|diagnosis|assessment|history|physical exam|plan|vital|allergies|specimen|clinical data|note)[\s:]/i`). -/
def medEndKeywords : List JStr :=
  [str "lab", str "diagnosis", str "assessment", str "history", str "physical exam",
   str "plan", str "vital", str "allergies", str "specimen", str "clinical data", str "note"]

/-- The lab section header variants of `extractLabResults`. -/
def labHeaders : List JStr :=
  [str "lab results", str "labs", str "laboratory", str "lab values", str "test results",
   str "laboratory results", str "blood work", str "clinical data", str "lab work"]

/-- Keywords ending the lab section
(`/^(medications|diagnosis|assessment|history|plan|vital|allergies|specimen|note)[\s:]/i`). -/
def labEndKeywords : List JStr :=
  [str "medications", str "diagnosis", str "assessment", str "history",
   str "plan", str "vital", str "allergies", str "specimen", str "note"]

/-- `line.match(/^(kw1|kw2|...)[\s:]/i)`: some keyword is a
case-insensitive prefix of the line, followed by a white-space or colon
character. -/
def matchesSectionEnd (kws : List JStr) (l : JStr) : Bool :=
  kws.any fun kw =>
    listStartsWith (l.map jsToLower) kw &&
    kw.length < l.length &&
    (isJsWS (l.getD kw.length ' ') || l.getD kw.length ' ' == ':')

/-- The single-character list-marker class `[-•*\d+.)\]]`. -/
def isMarker1 (c : Char) : Bool :=
  c == '-' || c == '•' || c == '*' || c.isDigit || c == '+' || c == '.' ||
  c == ')' || c == ']'

/-- `replace(/^[-•*\d+.)\]]\s*/, '')`: drop one leading marker character
and the white space after it. -/
def stripMarker1 (l : JStr) : JStr :=
  match l with
  | [] => []
  | c :: cs => if isMarker1 c then cs.dropWhile (fun d => isJsWS d) else c :: cs

/-- `replace(/^[A-Z][\)\.]\s*/, '')`: drop a leading lettered list
marker such as `A)` or `B.` and the white space after it. -/
def stripMarker2 (l : JStr) : JStr :=
  match l with
  | c :: d :: rest =>
    if ('A' ≤ c && c ≤ 'Z') && (d == ')' || d == '.') then
      rest.dropWhile (fun e => isJsWS e)
    else l
  | _ => l

/-- `cleaned.match(/^[A-Za-z\s]+[:：]$/)`: a bare `Label:` header shape
(letters and white space followed only by a colon). -/
def isBareHeader (l : JStr) : Bool :=
  match l.getLast? with
  | none => false
  | some c =>
    (c == ':' || c == '：') && !(l.dropLast.isEmpty) &&
    l.dropLast.all (fun d => isAsciiLetter d || isJsWS d)

/-- Same shape with a plain ASCII colon only
(`/^[A-Za-z\s]+:$/`, used by the multi-line clinical-data filter). -/
def isBareHeaderPlain (l : JStr) : Bool :=
  match l.getLast? with
  | none => false
  | some c =>
    c == ':' && !(l.dropLast.isEmpty) &&
    l.dropLast.all (fun d => isAsciiLetter d || isJsWS d)

/-- The shared scanning loop of `extractMedications` and
`extractLabResults`: enter the section at a fuzzy header match
(threshold 0.5), stop at a section-end line, otherwise strip list
markers and keep the line when it is long enough and not itself a bare
header. -/
def sectionScan (headers endKws : List JStr) : List JStr → Bool → List JStr
  | [], _ => []
  | l :: ls, inSec =>
    if !inSec && findBestMatch l headers (1/2) then sectionScan headers endKws ls true
    else if inSec && matchesSectionEnd endKws l then []
    else if inSec && !l.isEmpty then
      let cleaned := jsTrim (stripMarker2 (stripMarker1 l))
      if 2 < cleaned.length && !isBareHeader cleaned then
        cleaned :: sectionScan headers endKws ls inSec
      else sectionScan headers endKws ls inSec
    else sectionScan headers endKws ls inSec

/-- `extractMedications` from ocr.ts. -/
def extractMedications (text : JStr) : List JStr :=
  let lines := ((splitNl text).map jsTrim).filter (fun l => 0 < l.length)
  sectionScan medHeaders medEndKeywords lines false

/-- Match of the tail part of `/:\s*([^\n]+)/`: greedily skip white
space, then capture one-or-more non-newline characters; if only white
space remains, the engine backtracks into the white-space run to the
last non-newline character. Returns the capture with the rest of the
input after it, or `none` when the pattern cannot match here. -/
def wsCapture (s : JStr) : Option (JStr × JStr) :=
  let w := s.takeWhile (fun c => isJsWS c)
  let rest := s.drop w.length
  if !rest.isEmpty then
    some (rest.takeWhile (fun c => c ≠ '\n'), rest.dropWhile (fun c => c ≠ '\n'))
  else
    let k := (w.reverse.takeWhile (fun c => c = '\n')).length
    if k < w.length then
      let p := w.length - k - 1
      some ((s.drop p).takeWhile (fun c => c ≠ '\n'), (s.drop p).dropWhile (fun c => c ≠ '\n'))
    else none

/-- Leftmost match of `/KEYWORD\s*([^\n]+)/i` for a literal keyword
(given lowercase); returns the capture group. -/
def clinicalCapture (kw : JStr) : JStr → Option JStr
  | [] => none
  | c :: cs =>
    if listStartsWith ((c :: cs).map jsToLower) kw then
      match wsCapture ((c :: cs).drop kw.length) with
      | some (cap, _) => some cap
      | none => clinicalCapture kw cs
    else clinicalCapture kw cs

/-- Stop keywords of the multi-line clinical-data lookahead. -/
def multilineStopKws : List JStr := [str "specimen", str "diagnosis", str "note"]

/-- Fuel-driven helper for `contLines` (the fuel bounds the input
length so the recursion is structural). -/
def contLinesAux (stops : List JStr) : ℕ → JStr → JStr
  | 0, _ => []
  | _, [] => []
  | fuel + 1, c :: cs =>
    if c == '\n' && !(stops.any fun kw => listStartsWith (cs.map jsToLower) kw) then
      let line := cs.takeWhile (fun d => d ≠ '\n')
      '\n' :: (line ++ contLinesAux stops fuel (cs.drop line.length))
    else []

/-- The `(?:\n(?!(?:SPECIMEN|DIAGNOSIS|NOTE))[^\n]*)*` continuation:
greedily absorb further lines not starting with a stop keyword. -/
def contLines (stops : List JStr) (s : JStr) : JStr := contLinesAux stops s.length s

/-- Leftmost match of the multi-line clinical-data pattern
`/CLINICAL DATA:\s*([^\n]+(?:\n(?!(?:SPECIMEN|DIAGNOSIS|NOTE))[^\n]*)*)/i`. -/
def multilineClinical : JStr → Option JStr
  | [] => none
  | c :: cs =>
    if listStartsWith ((c :: cs).map jsToLower) (str "clinical data:") then
      match wsCapture ((c :: cs).drop (str "clinical data:").length) with
      | some (cap, rest) => some (cap ++ contLines multilineStopKws rest)
      | none => multilineClinical cs
    else multilineClinical cs

/-- Split the captured clinical-data text on `[;,]`, trim and drop empty
pieces; fall back to the white-space split when that yields nothing. -/
def clinicalCodes (data : JStr) : List JStr :=
  let codes := ((splitOnAny [';', ','] data).map jsTrim).filter (fun c => 0 < c.length)
  if !codes.isEmpty then codes
  else (splitWSAux false data).filter (fun c => 0 < c.length)

/-- Try each single-line clinical-data pattern in order, returning the
first nonempty code list. -/
def clinicalPatternScan : List JStr → JStr → Option (List JStr)
  | [], _ => none
  | kw :: kws, text =>
    match clinicalCapture kw text with
    | some data =>
      let codes := clinicalCodes data
      if !codes.isEmpty then some codes else clinicalPatternScan kws text
    | none => clinicalPatternScan kws text

/-- `extractLabResults` from ocr.ts: the three single-line clinical-data
patterns, then the multi-line capture, then the generic section scan. -/
def extractLabResults (text : JStr) : List JStr :=
  match clinicalPatternScan [str "clinical data:", str "clinical data:", str "clinical:"] text with
  | some codes => codes
  | none =>
    let ml :=
      match multilineClinical text with
      | some data =>
        ((splitOnAny [';', ',', '\n'] data).map jsTrim).filter
          (fun c => 0 < c.length && !isBareHeaderPlain c)
      | none => []
    if !ml.isEmpty then ml
    else
      let lines := ((splitNl text).map jsTrim).filter (fun l => 0 < l.length)
      sectionScan labHeaders labEndKeywords lines false

/-- A provisional extraction candidate of `extractField`. -/
structure Cand where
  value : JStr
  confidence : ℚ
  lineNumber : ℤ
deriving DecidableEq

/-- Stable insertion into a list sorted by descending confidence: the
insertee goes before the first element that is not strictly more
confident, hence after all equal-confidence elements inserted later in
the fold, which reproduces the JavaScript stable
`sort((a, b) => b.confidence - a.confidence)`. -/
def insertCand (c : Cand) : List Cand → List Cand
  | [] => [c]
  | d :: ds => if d.confidence ≤ c.confidence then c :: d :: ds else d :: insertCand c ds

/-- Stable sort of the candidate list by descending confidence. -/
def sortCands : List Cand → List Cand
  | [] => []
  | c :: cs => insertCand c (sortCands cs)

/-- JavaScript line-terminator characters (which the regex `.` cannot
match). -/
def isLineTerm (c : Char) : Bool :=
  c == '\n' || c == '\r' || c.toNat == 0x2028 || c.toNat == 0x2029

/-- `line.match(/^(.+?)[:]\s*(.*)$/)`: the lazy group puts the split at
the first colon at position at least 1; the characters of the label and
of the captured value must not be line terminators (`.` does not match
them), while the greedy `\s*` may absorb terminators between colon and
value. Returns (label, value). -/
def colonSplit (line : JStr) : Option (JStr × JStr) :=
  match line with
  | [] => none
  | c :: cs =>
    let label := c :: cs.takeWhile (fun d => d ≠ ':')
    if cs.contains ':' && label.all (fun d => !isLineTerm d) then
      let rest := (cs.dropWhile (fun d => d ≠ ':')).drop 1
      let value := rest.dropWhile (fun d => isJsWS d)
      if value.all (fun d => !isLineTerm d) then some (label, value) else none
    else none

/-- The first variant accepted by the score-or-containment test, with
its similarity score: the JS variant loops break at the first match. -/
def firstVariantMatch (variants : List JStr) (normLabel : JStr) (thr : ℚ) :
    Option (JStr × ℚ) :=
  match variants with
  | [] => none
  | v :: vs =>
    let score := similarity normLabel (normalizeText v)
    if thr ≤ score || jsIncludes normLabel (normalizeText v) then some (v, score)
    else firstVariantMatch vs normLabel thr

/-- The next-line fallback shared by strategies 1 and 2 of
`extractField`: the trimmed following line is used as the value when it
is nonempty, contains no colon, and has length above 1. -/
def nextLineValue (lines : List JStr) (i : ℕ) : Option JStr :=
  if i + 1 < lines.length then
    let nl := jsTrim (lines.getD (i + 1) [])
    if !nl.isEmpty && !nl.contains ':' && 1 < nl.length then some nl else none
  else none

/-- Strategy 1 of `extractField` (colon split) on line `i`. -/
def strat1 (lines : List JStr) (variants : List JStr) (i : ℕ) : List Cand :=
  let line := jsTrim (lines.getD i [])
  match colonSplit line with
  | none => []
  | some (label, value) =>
    let cleanLabel := jsTrim label
    let cleanValue := jsTrim value
    match firstVariantMatch variants (normalizeText cleanLabel) (6/10) with
    | none => []
    | some (_, score) =>
      if !cleanValue.isEmpty then [⟨cleanValue, score + 3/10, (i : ℤ)⟩]
      else
        match nextLineValue lines i with
        | some nl => [⟨nl, score + 2/10, (i : ℤ)⟩]
        | none => []

/-- `replace(/^[:：\-\s]+/, '')`. -/
def stripLeadingPunct (s : JStr) : JStr :=
  s.dropWhile (fun c => c == ':' || c == '：' || c == '-' || isJsWS c)

/-- `words.join(' ')`. -/
def joinSpace : List JStr → JStr
  | [] => []
  | [w] => w
  | w :: ws => w ++ ' ' :: joinSpace ws

/-- Strategy 2 of `extractField` (leading words) on line `i` for one
window size `wordCount`. -/
def strat2At (lines : List JStr) (variants : List JStr) (i : ℕ) (words : List JStr)
    (wordCount : ℕ) : List Cand :=
  let potentialLabel := joinSpace (words.take wordCount)
  match firstVariantMatch variants (normalizeText potentialLabel) (7/10) with
  | none => []
  | some (_, score) =>
    let remaining := words.drop wordCount
    if !remaining.isEmpty then
      let value := jsTrim (stripLeadingPunct (joinSpace remaining))
      if !value.isEmpty && 1 < value.length then [⟨value, score, (i : ℤ)⟩] else []
    else
      match nextLineValue lines i with
      | some nl => [⟨nl, score - 1/10, (i : ℤ)⟩]
      | none => []

/-- Strategy 2 of `extractField` on line `i`: windows of 1 to
`min 4 words.length` leading tokens. -/
def strat2 (lines : List JStr) (variants : List JStr) (i : ℕ) : List Cand :=
  let line := jsTrim (lines.getD i [])
  let words := splitWSAux false line
  ((List.range (min 4 words.length)).map (· + 1)).flatMap (strat2At lines variants i words)

/-- All candidates contributed by line `i` (empty lines are skipped). -/
def lineCands (lines : List JStr) (variants : List JStr) (i : ℕ) : List Cand :=
  let line := jsTrim (lines.getD i [])
  if line.isEmpty then [] else strat1 lines variants i ++ strat2 lines variants i

/-- The full candidate list of `extractField`, in push order: the
pattern strategy first (confidence 1, source line -1), then the per-line
strategies in line order. The extraction pattern is modelled as an
abstract capture function returning the first capture group. -/
def extractCandidates (rawText : JStr) (variants : List JStr)
    (pattern : JStr → Option JStr) : List Cand :=
  let lines := splitNl rawText
  let strat0 : List Cand :=
    match pattern rawText with
    | some g => let e := jsTrim g; if !e.isEmpty then [⟨e, 1, -1⟩] else []
    | none => []
  strat0 ++ (List.range lines.length).flatMap (lineCands lines variants)

/-- `extractField` from ocr.ts: collect all candidates, sort by
descending confidence (stable), return the top value. -/
def extractField (rawText : JStr) (variants : List JStr)
    (pattern : JStr → Option JStr) : Option JStr :=
  match sortCands (extractCandidates rawText variants pattern) with
  | [] => none
  | best :: _ => some best.value

/-- Axis-aligned bounding box in source-image pixel coordinates. -/
structure BBox where
  x0 : ℚ
  y0 : ℚ
  x1 : ℚ
  y1 : ℚ
deriving DecidableEq

/-- Word-level recognizer output (interface `EnhancedWord`). -/
structure EnhancedWord where
  text : JStr
  bbox : BBox
  confidence : ℚ
deriving DecidableEq

/-- Line-level recognizer output (interface `EnhancedLine`). -/
structure EnhancedLine where
  text : JStr
  bbox : BBox
  confidence : ℚ
  words : List EnhancedWord
deriving DecidableEq

/-- The recognized-document value stored in the process-global
`globalThis.__ocrData` (interface `GlobalOCRData`; the block list is
stored but never used by the engine and is omitted here). -/
structure GlobalOCRData where
  text : JStr
  confidence : ℚ
  lines : List EnhancedLine
  words : List EnhancedWord
deriving DecidableEq

/-- `replace(/[:：\-]/g, '')`: remove separator punctuation. -/
def stripSeparators (s : JStr) : JStr :=
  s.filter (fun c => !(c == ':' || c == '：' || c == '-'))

/-- Strategy 1 of the spatial extractor on one line: same-line
label-value pairs. -/
def spatialStrat1Line (variants : List JStr) (minConfidence : ℚ)
    (line : EnhancedLine) : Option JStr :=
  if line.words.length < 2 then none
  else if line.confidence < minConfidence then none
  else
    let lineText := line.text.map jsToLower
    variants.findSome? fun variant =>
      let nv := normalizeText variant
      if jsIncludes (normalizeText lineText) nv then
        match line.words.findIdx? (fun w =>
            jsIncludes (normalizeText w.text) nv ||
            decide ((7 : ℚ)/10 < similarity (normalizeText w.text) nv)) with
        | some idx =>
          if idx < line.words.length - 1 then
            let valueWords :=
              (((line.words.drop (idx + 1)).filter
                  (fun w => minConfidence ≤ w.confidence)).map
                (fun w => jsTrim (stripSeparators w.text))).filter
                (fun t => 0 < t.length)
            if !valueWords.isEmpty then some (joinSpace valueWords) else none
          else none
        | none => none
      else none

/-- Strategy 2 of the spatial extractor on one adjacent line pair:
vertically aligned label-value pairs. -/
def spatialStrat2Pair (variants : List JStr) (minConfidence : ℚ)
    (line nextLine : EnhancedLine) : Option JStr :=
  if line.confidence < minConfidence || nextLine.confidence < minConfidence then none
  else
    let lineText := normalizeText line.text
    variants.findSome? fun variant =>
      let nv := normalizeText variant
      if decide ((7 : ℚ)/10 < similarity lineText nv) || jsIncludes lineText nv then
        if |line.bbox.x0 - nextLine.bbox.x0| < 50 then some (jsTrim nextLine.text)
        else none
      else none

/-- Stable insertion by ascending left x-coordinate (the JavaScript
stable `sort((a, b) => a.bbox.x0 - b.bbox.x0)`). -/
def insertByX0 (w : EnhancedWord) : List EnhancedWord → List EnhancedWord
  | [] => [w]
  | v :: vs => if w.bbox.x0 ≤ v.bbox.x0 then w :: v :: vs else v :: insertByX0 w vs

/-- Stable sort of words by ascending left x-coordinate. -/
def sortByX0 : List EnhancedWord → List EnhancedWord
  | [] => []
  | w :: ws => insertByX0 w (sortByX0 ws)

/-- Strategy 3 of the spatial extractor for one label word: horizontal
proximity. -/
def spatialStrat3Word (allWords : List EnhancedWord) (variants : List JStr)
    (minConfidence : ℚ) (word : EnhancedWord) : Option JStr :=
  if word.confidence < minConfidence then none
  else
    let wordText := normalizeText word.text
    variants.findSome? fun variant =>
      let nv := normalizeText variant
      if decide ((7 : ℚ)/10 < similarity wordText nv) || jsIncludes wordText nv then
        let labelRight := word.bbox.x1
        let labelY := word.bbox.y0
        let nearbyWords := sortByX0 (allWords.filter fun w =>
          decide (labelRight < w.bbox.x0) && decide (w.bbox.x0 < labelRight + 300) &&
          decide (|w.bbox.y0 - labelY| < 20) && decide (minConfidence ≤ w.confidence))
        if !nearbyWords.isEmpty then
          let value := joinSpace
            ((nearbyWords.map (fun w => jsTrim (stripSeparators w.text))).filter
              (fun t => 0 < t.length))
          if 0 < value.length then some value else none
        else none
      else none

/-- `extractFieldWithSpatialAwareness` from ocr.ts. The function reads
the process-global `globalThis.__ocrData`, which is passed here as the
explicit `ocrData` argument; the `pattern` parameter is declared by the
source but never used. -/
def extractFieldWithSpatialAwareness (ocrData : Option GlobalOCRData)
    (fieldVariants : List JStr) (_pattern : JStr → Option JStr)
    (minConfidence : ℚ) : Option JStr :=
  match ocrData with
  | none => none
  | some d =>
    match d.lines.findSome? (spatialStrat1Line fieldVariants minConfidence) with
    | some v => some v
    | none =>
      match (d.lines.zip d.lines.tail).findSome?
          (fun p => spatialStrat2Pair fieldVariants minConfidence p.1 p.2) with
      | some v => some v
      | none =>
        (d.words.take (d.words.length - 1)).findSome?
          (spatialStrat3Word d.words fieldVariants minConfidence)

/-- Label variants of the `fieldVariants` table for patient name. -/
def patientNameVariants : List JStr :=
  [str "patient name", str "name", str "full name", str "pt name", str "patient",
   str "name of patient", str "patient full name", str "legal name", str "patent test",
   str "patent"]

/-- Label variants of the `fieldVariants` table for patient id. -/
def patientIdVariants : List JStr :=
  [str "mrn", str "patient id", str "id", str "medical record number", str "record number",
   str "patient number", str "chart number", str "account number", str "record no",
   str "medical record no", str "pt id", str "patient mrn", str "patient 0"]

/-- Label variants of the `fieldVariants` table for date of birth. -/
def dateOfBirthVariants : List JStr :=
  [str "dob", str "date of birth", str "birth date", str "birthdate", str "born",
   str "date birth", str "patient dob", str "pt dob", str "birthday"]

/-- Label variants of the `fieldVariants` table for diagnosis. -/
def diagnosisVariants : List JStr :=
  [str "assessment", str "diagnosis", str "impression", str "dx", str "diagnoses",
   str "primary diagnosis", str "clinical impression", str "findings", str "final diagnosis"]

/-- The four per-field regular expressions of the `fieldVariants` table,
modelled as abstract capture functions (a match returns the first
capture group). Every result below holds for all choices of patterns. -/
structure FieldPatterns where
  patientName : JStr → Option JStr
  patientId : JStr → Option JStr
  dateOfBirth : JStr → Option JStr
  diagnosis : JStr → Option JStr

/-- The OCR-artifact cleanup at the top of `parseEMRText`: `|` becomes
`I`; each `O` or `0` becomes `0` when a raw-text neighbour is a digit
and `O` otherwise. -/
def cleanOCR (raw : JStr) : JStr :=
  (List.range raw.length).map fun k =>
    let c := if raw.getD k ' ' == '|' then 'I' else raw.getD k ' '
    if c == 'O' || c == '0' then
      if (decide (0 < k) && (raw.getD (k - 1) ' ').isDigit) || (raw.getD (k + 1) ' ').isDigit
      then '0' else 'O'
    else c

/-- The parsed record shape (interface `EMRData` of types/medical.ts;
the report fields live outside the extraction engine). -/
structure EMRData where
  patientName : JStr
  patientId : JStr
  dateOfBirth : JStr
  diagnosis : JStr
  medications : List JStr
  labResults : List JStr
  rawText : JStr

/-- `let x = f(); if (!x) x = g();` on string-or-null values: the empty
string is falsy. -/
def jsOr (a b : Option JStr) : Option JStr :=
  match a with
  | some s => if s.isEmpty then b else some s
  | none => b

/-- `x || d` with a string default (the empty string is falsy). -/
def jsOrElse (o : Option JStr) (d : JStr) : JStr :=
  match o with
  | some s => if s.isEmpty then d else s
  | none => d

/-- `parseEMRText` from ocr.ts. The process-global `__ocrData` read by
the spatial extractor is passed explicitly as `ocrData`; the spatial
calls use the default `minConfidence` of 60. -/
def parseEMRText (ocrData : Option GlobalOCRData) (pats : FieldPatterns)
    (rawText : JStr) : EMRData :=
  let cleanedText := cleanOCR rawText
  let patientName :=
    jsOrElse (jsOr (extractFieldWithSpatialAwareness ocrData patientNameVariants pats.patientName 60)
      (extractField cleanedText patientNameVariants pats.patientName)) (str "Unknown")
  let patientId :=
    jsOrElse (jsOr (extractFieldWithSpatialAwareness ocrData patientIdVariants pats.patientId 60)
      (extractField cleanedText patientIdVariants pats.patientId)) (str "N/A")
  let dateOfBirth :=
    jsOrElse (jsOr (extractFieldWithSpatialAwareness ocrData dateOfBirthVariants pats.dateOfBirth 60)
      (extractField cleanedText dateOfBirthVariants pats.dateOfBirth)) (str "N/A")
  let diagnosis :=
    jsOrElse (jsOr (extractFieldWithSpatialAwareness ocrData diagnosisVariants pats.diagnosis 60)
      (extractField cleanedText diagnosisVariants pats.diagnosis)) (str "N/A")
  { patientName := patientName
    patientId := patientId
    dateOfBirth := dateOfBirth
    diagnosis := diagnosis
    medications := extractMedications cleanedText
    labResults := extractLabResults cleanedText
    rawText := cleanedText }

/-- A JavaScript number where the code can leave the finite range:
finite rational, `NaN`, or a signed infinity. -/
inductive JVal where
  | fin (q : ℚ)
  | nan
  | pinf
  | ninf
deriving DecidableEq

/-- JavaScript subtraction on `JVal`. -/
def JVal.sub : JVal → JVal → JVal
  | nan, _ => nan
  | _, nan => nan
  | pinf, pinf => nan
  | pinf, _ => pinf
  | ninf, ninf => nan
  | ninf, _ => ninf
  | fin _, pinf => ninf
  | fin _, ninf => pinf
  | fin a, fin b => fin (a - b)

/-- JavaScript addition on `JVal`. -/
def JVal.add : JVal → JVal → JVal
  | nan, _ => nan
  | _, nan => nan
  | pinf, ninf => nan
  | pinf, _ => pinf
  | ninf, pinf => nan
  | ninf, _ => ninf
  | fin _, pinf => pinf
  | fin _, ninf => ninf
  | fin a, fin b => fin (a + b)

/-- JavaScript multiplication on `JVal`. -/
def JVal.mul : JVal → JVal → JVal
  | nan, _ => nan
  | _, nan => nan
  | pinf, pinf => pinf
  | pinf, ninf => ninf
  | ninf, pinf => ninf
  | ninf, ninf => pinf
  | pinf, fin b => if b = 0 then nan else if 0 < b then pinf else ninf
  | fin a, pinf => if a = 0 then nan else if 0 < a then pinf else ninf
  | ninf, fin b => if b = 0 then nan else if 0 < b then ninf else pinf
  | fin a, ninf => if a = 0 then nan else if 0 < a then ninf else pinf
  | fin a, fin b => fin (a * b)

/-- JavaScript division on `JVal` (division by zero gives `NaN` for a
zero numerator and a signed infinity otherwise). -/
def JVal.div : JVal → JVal → JVal
  | nan, _ => nan
  | _, nan => nan
  | pinf, pinf => nan
  | pinf, ninf => nan
  | ninf, pinf => nan
  | ninf, ninf => nan
  | pinf, fin b => if b < 0 then ninf else pinf
  | ninf, fin b => if b < 0 then pinf else ninf
  | fin _, pinf => fin 0
  | fin _, ninf => fin 0
  | fin a, fin b =>
    if b = 0 then (if a = 0 then nan else if 0 < a then pinf else ninf)
    else fin (a / b)

/-- The JavaScript `<` comparison (false whenever `NaN` is involved). -/
def JVal.lt : JVal → JVal → Bool
  | nan, _ => false
  | _, nan => false
  | pinf, _ => false
  | _, pinf => true
  | ninf, ninf => false
  | ninf, _ => true
  | fin _, ninf => false
  | fin a, fin b => decide (a < b)

/-- `Math.round`: round half toward positive infinity. -/
def JVal.round : JVal → JVal
  | fin q => fin ((⌊q + 1/2⌋ : ℤ) : ℚ)
  | v => v

/-- Round to the nearest integer, ties to even (the rounding of a
`Uint8ClampedArray` store). -/
def roundHalfEven (q : ℚ) : ℤ :=
  if q - ⌊q⌋ < 1/2 then ⌊q⌋
  else if (1 : ℚ)/2 < q - ⌊q⌋ then ⌊q⌋ + 1
  else if ⌊q⌋ % 2 = 0 then ⌊q⌋ else ⌊q⌋ + 1

/-- A store into a `Uint8ClampedArray` slot: clamp to `[0, 255]` with
ties-to-even rounding; `NaN` stores 0. -/
def clampUint8 : JVal → ℕ
  | JVal.fin q => if q ≤ 0 then 0 else if 255 ≤ q then 255 else (roundHalfEven q).toNat
  | JVal.nan => 0
  | JVal.pinf => 255
  | JVal.ninf => 0

/-- Step 1 of `preprocessImage`: per pixel write the luma
`0.299 R + 0.587 G + 0.114 B` into all three channels; the stored value
goes through the clamped-store rounding, and the three float
coefficients are modelled as exact rationals. -/
def grayscaleStep (data : List (ℕ × ℕ × ℕ)) : List ℕ :=
  data.map fun p =>
    clampUint8 (JVal.fin ((299 : ℚ)/1000 * p.1 + (587 : ℚ)/1000 * p.2.1 +
      (114 : ℚ)/1000 * p.2.2))

/-- The cumulative histogram of step 2: `histCdf lum v` is `cdf[v]`. -/
def histCdf (lum : List ℕ) : ℕ → ℕ
  | 0 => lum.count 0
  | v + 1 => histCdf lum v + lum.count (v + 1)

/-- `const cdfMin = cdf.find(val => val > 0) || 0`. -/
def cdfMin (lum : List ℕ) : ℕ :=
  (((List.range 256).map (histCdf lum)).find? (fun t => decide (0 < t))).getD 0

/-- The histogram-equalization remap of step 2 applied to one stored
luma value: `Math.round((cdf[v] - cdfMin) / (totalPixels - cdfMin) * 255)`
followed by the clamped store, on JavaScript-number semantics
(`totalPixels` is `width * height`). -/
def eqRemap (w h : ℕ) (lum : List ℕ) (v : ℕ) : ℕ :=
  clampUint8 (JVal.round (JVal.mul
    (JVal.div (JVal.fin ((histCdf lum v : ℚ) - (cdfMin lum : ℚ)))
      (JVal.fin (((w * h : ℕ) : ℚ) - (cdfMin lum : ℚ))))
    (JVal.fin 255)))

/-- Pixel access in a single-channel row-major grid. -/
def gridAt (w : ℕ) (g : List ℕ) (x y : ℕ) : ℕ := g.getD (y * w + x) 0

/-- The summed-area table of step 3: the sum of the equalized lumas
over the rectangle `[0, x] × [0, y]`. -/
def integralAt (w : ℕ) (g : List ℕ) (x y : ℕ) : ℕ :=
  ∑ j in Finset.range (y + 1), ∑ i in Finset.range (x + 1), gridAt w g i j

/-- Read `integralImage[r][c]` with indices in doubled (half-unit) form,
so that the fractional window bounds produced by `blockSize / 2 = 7.5`
stay exact. A fractional or out-of-range row index yields `undefined`
and the subsequent column access throws a `TypeError` (the
`Except.error` case); a valid row with a fractional or out-of-range
column yields `undefined`, which the following arithmetic turns into
`NaN` (returned as `nan` directly, which produces the same pixel value
because every read feeds an arithmetic operation). -/
def cellRead (w h : ℕ) (g : List ℕ) (rh ch : ℤ) : Except Unit JVal :=
  if rh % 2 = 0 ∧ 0 ≤ rh ∧ rh ≤ 2 * ((h : ℤ) - 1) then
    if ch % 2 = 0 ∧ 0 ≤ ch ∧ ch ≤ 2 * ((w : ℤ) - 1) then
      Except.ok (JVal.fin (integralAt w g (ch / 2).toNat (rh / 2).toNat))
    else Except.ok JVal.nan
  else Except.error ()

/-- Step 3 of `preprocessImage` for the pixel `(x, y)`: window bounds
`max(0, x - 7.5)`, `min(width - 1, x + 7.5)` and so on are kept in
doubled form; the four summed-area reads follow the source order; the
pixel becomes 255 when the equalized value exceeds `localMean - 10`
and 0 otherwise, written to all three channels. -/
def binAt (w h : ℕ) (g : List ℕ) (x y : ℕ) : Except Unit (ℕ × ℕ × ℕ) := do
  let x1h : ℤ := max 0 (2 * (x : ℤ) - 15)
  let x2h : ℤ := min (2 * ((w : ℤ) - 1)) (2 * (x : ℤ) + 15)
  let y1h : ℤ := max 0 (2 * (y : ℤ) - 15)
  let y2h : ℤ := min (2 * ((h : ℤ) - 1)) (2 * (y : ℤ) + 15)
  let count : JVal := JVal.fin ((((x2h - x1h) * (y2h - y1h) : ℤ) : ℚ) / 4)
  let a ← cellRead w h g y2h x2h
  let s1 ←
    if 0 < x1h then do
      let b ← cellRead w h g y2h (x1h - 2)
      pure (JVal.sub a b)
    else pure a
  let s2 ←
    if 0 < y1h then do
      let c ← cellRead w h g (y1h - 2) x2h
      pure (JVal.sub s1 c)
    else pure s1
  let s3 ←
    if 0 < x1h ∧ 0 < y1h then do
      let d ← cellRead w h g (y1h - 2) (x1h - 2)
      pure (JVal.add s2 d)
    else pure s2
  let mean := JVal.div s3 count
  let pixel : ℕ := gridAt w g x y
  let threshold := JVal.sub mean (JVal.fin 10)
  let b : ℕ := if JVal.lt threshold (JVal.fin pixel) then 255 else 0
  pure (b, b, b)

/-- Step 3 of `preprocessImage` over all pixels in scan order; the
first throwing pixel rejects the whole computation. -/
def binarizeStep (w h : ℕ) (g : List ℕ) : Except Unit (List (ℕ × ℕ × ℕ)) :=
  ((List.range h).flatMap fun y => (List.range w).map fun x => (x, y)).mapM
    (fun p => binAt w h g p.1 p.2)

/-- `preprocessImage` from ocr.ts as the pixel pipeline on a decoded
image of the given dimensions: grayscale, histogram equalization,
adaptive binarization. A throw inside the processing (see `cellRead`)
rejects the promise, modelled by `Except.error`. -/
def preprocessImage (w h : ℕ) (data : List (ℕ × ℕ × ℕ)) :
    Except Unit (List (ℕ × ℕ × ℕ)) :=
  let lum := grayscaleStep data
  let eq := lum.map (eqRemap w h lum)
  binarizeStep w h eq

/-- The classic single-character insert/delete/substitute Levenshtein
distance: the reference definition named by the specification. -/
def lev : JStr → JStr → ℕ
  | [], ys => ys.length
  | x :: xs, [] => (x :: xs).length
  | x :: xs, y :: ys =>
    if x = y then lev xs ys
    else 1 + min (min (lev xs (y :: ys)) (lev (x :: xs) ys)) (lev xs ys)
termination_by xs ys => xs.length + ys.length
decreasing_by
  all_goals simp only [List.length_cons]
  all_goals omega

/-- An edit script turning the first string into the second using the
given number of single-character insertions, deletions and
substitutions (a substitution step may also rewrite a character to
itself). -/
inductive Edits : JStr → JStr → ℕ → Prop where
  | nil : Edits [] [] 0
  | copy (c : Char) {xs ys n} : Edits xs ys n → Edits (c :: xs) (c :: ys) n
  | subst (a b : Char) {xs ys n} : Edits xs ys n → Edits (a :: xs) (b :: ys) (n + 1)
  | del (a : Char) {xs ys n} : Edits xs ys n → Edits (a :: xs) ys (n + 1)
  | ins (b : Char) {xs ys n} : Edits xs ys n → Edits xs (b :: ys) (n + 1)

/-- Adjacent characters are not both white space. -/
def NoWSPair (a b : Char) : Prop := ¬(isJsWS a = true ∧ isJsWS b = true)

/-- A concrete recognized document for the spatial-extractor theorems:
one line reading `Name <value>` made of two words. -/
def demoDoc (value : String) : GlobalOCRData :=
  { text := str ("Name " ++ value)
    confidence := 90
    lines := [{ text := str ("Name " ++ value), bbox := ⟨0, 0, 90, 10⟩, confidence := 90,
                words := [{ text := str "Name", bbox := ⟨0, 0, 40, 10⟩, confidence := 90 },
                          { text := str value, bbox := ⟨50, 0, 90, 10⟩, confidence := 90 }] }]
    words := [{ text := str "Name", bbox := ⟨0, 0, 40, 10⟩, confidence := 90 },
              { text := str value, bbox := ⟨50, 0, 90, 10⟩, confidence := 90 }] }

/-- Row `i` of the Levenshtein prefix table: entry `j` is the classic
distance between the reversed length-`i` prefix of `s2` and the
reversed length-`j` prefix of `s1` (the orientation computed by the
rolling-array loop of `levenshteinDistance`). -/
def dpRow (s1 s2 : JStr) (i : ℕ) : List ℕ :=
  (List.range (s1.length + 1)).map (fun j => lev ((s2.take i).reverse) ((s1.take j).reverse))

set_option maxRecDepth 8000

theorem charOfNatValid (n : ℕ) (h : n.isValidChar) : (Char.ofNat n).toNat = n := by
  simp only [Char.ofNat, h, dif_pos]
  rfl

theorem jsToLower_idem (c : Char) : jsToLower (jsToLower c) = jsToLower c := by
  unfold jsToLower
  by_cases h : ('A' ≤ c && c ≤ 'Z') = true
  · rw [if_pos h]
    rw [Bool.and_eq_true, decide_eq_true_eq, decide_eq_true_eq] at h
    have h65 : 65 ≤ c.toNat := h.1
    have h90 : c.toNat ≤ 90 := h.2
    have hv : (c.toNat + 32).isValidChar := by left; omega
    have ht := charOfNatValid _ hv
    rw [if_neg]
    intro hcon
    rw [Bool.and_eq_true, decide_eq_true_eq, decide_eq_true_eq] at hcon
    have hb2 : (Char.ofNat (c.toNat + 32)).toNat ≤ 90 := hcon.2
    rw [ht] at hb2
    omega
  · rw [if_neg h, if_neg h]

theorem collapseWSAux_mem {f : Bool} {s : JStr} {c : Char}
    (h : c ∈ collapseWSAux f s) : c = ' ' ∨ (c ∈ s ∧ isJsWS c = false) := by
  induction s generalizing f with
  | nil => simp [collapseWSAux] at h
  | cons a as ih =>
    unfold collapseWSAux at h
    by_cases ha : isJsWS a = true
    · rw [if_pos ha] at h
      cases f with
      | true =>
        rcases ih h with h1 | h2
        · exact Or.inl h1
        · exact Or.inr ⟨List.mem_cons_of_mem _ h2.1, h2.2⟩
      | false =>
        rcases List.mem_cons.mp h with h1 | h1
        · exact Or.inl h1
        · rcases ih h1 with h2 | h3
          · exact Or.inl h2
          · exact Or.inr ⟨List.mem_cons_of_mem _ h3.1, h3.2⟩
    · rw [if_neg ha] at h
      rcases List.mem_cons.mp h with h1 | h1
      · subst h1
        exact Or.inr ⟨List.mem_cons_self _ _, Bool.not_eq_true _ ▸ ha⟩
      · rcases ih h1 with h2 | h3
        · exact Or.inl h2
        · exact Or.inr ⟨List.mem_cons_of_mem _ h3.1, h3.2⟩

theorem collapseWSAux_head_true {s : JStr} {c : Char}
    (h : (collapseWSAux true s).head? = some c) : isJsWS c = false := by
  induction s with
  | nil => simp [collapseWSAux] at h
  | cons a as ih =>
    unfold collapseWSAux at h
    by_cases ha : isJsWS a = true
    · rw [if_pos ha] at h
      exact ih h
    · rw [if_neg ha] at h
      simp only [List.head?_cons, Option.some.injEq] at h
      subst h
      exact Bool.not_eq_true _ ▸ ha

theorem collapseWSAux_chain (s : JStr) (f : Bool) :
    List.Chain' NoWSPair (collapseWSAux f s) := by
  induction s generalizing f with
  | nil => simp [collapseWSAux]
  | cons a as ih =>
    unfold collapseWSAux
    by_cases ha : isJsWS a = true
    · rw [if_pos ha]
      cases f with
      | true => exact ih true
      | false =>
        rw [if_neg (by simp)]
        rw [List.chain'_cons']
        refine ⟨fun y hy => ?_, ih true⟩
        intro hcon
        rw [collapseWSAux_head_true hy] at hcon
        exact Bool.false_ne_true hcon.2
    · rw [if_neg ha]
      rw [List.chain'_cons']
      refine ⟨fun y hy => ?_, ih false⟩
      intro hcon
      exact ha hcon.1

theorem dropWhile_head_not {p : Char → Bool} {l : JStr} {c : Char}
    (h : (l.dropWhile p).head? = some c) : p c = false := by
  induction l with
  | nil => simp [List.dropWhile] at h
  | cons a as ih =>
    rw [List.dropWhile_cons] at h
    by_cases ha : p a = true
    · rw [if_pos ha] at h
      exact ih h
    · rw [if_neg ha] at h
      simp only [List.head?_cons, Option.some.injEq] at h
      subst h
      exact Bool.not_eq_true _ ▸ ha

theorem getLast?_dropWhile {p : Char → Bool} {u : JStr}
    (h : u.dropWhile p ≠ []) : (u.dropWhile p).getLast? = u.getLast? := by
  induction u with
  | nil => simp [List.dropWhile] at h
  | cons a as ih =>
    rw [List.dropWhile_cons]
    by_cases ha : p a = true
    · rw [List.dropWhile_cons, if_pos ha] at h
      rw [if_pos ha, ih h]
      cases as with
      | nil => simp [List.dropWhile] at h
      | cons b bs => rw [List.getLast?_cons_cons]
    · rw [if_neg ha]

theorem jsTrim_head_not_ws {s : JStr} {c : Char}
    (h : (jsTrim s).head? = some c) : isJsWS c = false := by
  unfold jsTrim at h
  rw [List.head?_reverse] at h
  have hne : (s.dropWhile (fun c => isJsWS c)).reverse.dropWhile (fun c => isJsWS c) ≠ [] := by
    intro hcon
    rw [hcon] at h
    simp at h
  rw [getLast?_dropWhile hne, List.getLast?_eq_head?_reverse, List.reverse_reverse] at h
  exact dropWhile_head_not h

theorem jsTrim_getLast_not_ws {s : JStr} {c : Char}
    (h : (jsTrim s).getLast? = some c) : isJsWS c = false := by
  unfold jsTrim at h
  rw [List.getLast?_eq_head?_reverse, List.reverse_reverse] at h
  exact dropWhile_head_not h

theorem jsTrim_sublist (s : JStr) : (jsTrim s).Sublist s := by
  unfold jsTrim
  have h1 : ((s.dropWhile (fun c => isJsWS c)).reverse.dropWhile (fun c => isJsWS c)).Sublist
      (s.dropWhile (fun c => isJsWS c)).reverse := List.dropWhile_sublist _
  have h2 := h1.reverse
  rw [List.reverse_reverse] at h2
  exact h2.trans (List.dropWhile_sublist _)

theorem noWSPair_flip {a b : Char} (h : NoWSPair a b) : NoWSPair b a := by
  intro hcon
  exact h ⟨hcon.2, hcon.1⟩

theorem jsTrim_chain {s : JStr} (h : List.Chain' NoWSPair s) :
    List.Chain' NoWSPair (jsTrim s) := by
  unfold jsTrim
  have h1 : List.Chain' NoWSPair (s.dropWhile (fun c => isJsWS c)) :=
    h.suffix (List.dropWhile_suffix _)
  have h2 : List.Chain' NoWSPair (s.dropWhile (fun c => isJsWS c)).reverse := by
    rw [List.chain'_reverse]
    exact h1.imp fun a b hab => noWSPair_flip hab
  have h3 := h2.suffix (List.dropWhile_suffix (fun c => isJsWS c))
  rw [List.chain'_reverse]
  exact h3.imp fun a b hab => noWSPair_flip hab

theorem normalizeText_out (t : JStr) :
    (∀ c ∈ normalizeText t, jsToLower c = c ∧ (isWordChar c = true ∨ c = ' ')) ∧
    List.Chain' NoWSPair (normalizeText t) ∧
    (∀ c, (normalizeText t).head? = some c → isJsWS c = false) ∧
    (∀ c, (normalizeText t).getLast? = some c → isJsWS c = false) := by
  refine ⟨?_, ?_, ?_, ?_⟩
  · intro c hc
    have hc2 : c ∈ collapseWS ((t.map jsToLower).filter (fun c => isWordChar c || isJsWS c)) :=
      (jsTrim_sublist _).subset hc
    rcases collapseWSAux_mem hc2 with h1 | h2
    · subst h1
      exact ⟨by decide, Or.inr rfl⟩
    · obtain ⟨hmem, hws⟩ := h2
      obtain ⟨hmem2, hp⟩ := List.mem_filter.mp hmem
      obtain ⟨d, _, hd⟩ := List.mem_map.mp hmem2
      constructor
      · rw [← hd, jsToLower_idem]
      · rw [Bool.or_eq_true] at hp
        rcases hp with hw | hw
        · exact Or.inl hw
        · rw [hws] at hw
          exact absurd hw (by simp)
  · exact jsTrim_chain (collapseWSAux_chain _ false)
  · intro c hc
    exact jsTrim_head_not_ws hc
  · intro c hc
    exact jsTrim_getLast_not_ws hc

theorem collapseWSAux_id {r : JStr}
    (hws : ∀ c ∈ r, isJsWS c = true → c = ' ')
    (hch : List.Chain' NoWSPair r) :
    collapseWSAux false r = r ∧
    ((∀ c, r.head? = some c → isJsWS c = false) → collapseWSAux true r = r) := by
  induction r with
  | nil => exact ⟨rfl, fun _ => rfl⟩
  | cons a rs ih =>
    rw [List.chain'_cons'] at hch
    obtain ⟨hhead, hch2⟩ := hch
    have ihs := ih (fun c hc hw => hws c (List.mem_cons_of_mem _ hc) hw) hch2
    by_cases ha : isJsWS a = true
    · have haSpace : a = ' ' := hws a (List.mem_cons_self _ _) ha
      have hrsHead : ∀ c, rs.head? = some c → isJsWS c = false := by
        intro c hc
        have := hhead c hc
        unfold NoWSPair at this
        by_cases hcw : isJsWS c = true
        · exact absurd ⟨ha, hcw⟩ this
        · exact Bool.not_eq_true _ ▸ hcw
      constructor
      · show collapseWSAux false (a :: rs) = a :: rs
        unfold collapseWSAux
        rw [if_pos ha, if_neg (by simp), ihs.2 hrsHead, haSpace]
      · intro hh
        have := hh a rfl
        rw [ha] at this
        exact absurd this (by simp)
    · constructor
      · show collapseWSAux false (a :: rs) = a :: rs
        unfold collapseWSAux
        rw [if_neg ha, ihs.1]
      · intro _
        show collapseWSAux true (a :: rs) = a :: rs
        unfold collapseWSAux
        rw [if_neg ha, ihs.1]

theorem dropWhile_eq_self_of_head {p : Char → Bool} {l : JStr}
    (h : ∀ c, l.head? = some c → p c = false) : l.dropWhile p = l := by
  cases l with
  | nil => rfl
  | cons a as => rw [List.dropWhile_cons, if_neg (by simp [h a rfl])]

theorem isWordChar_toNat {c : Char} (h : isWordChar c = true) :
    48 ≤ c.toNat ∧ c.toNat ≤ 122 := by
  unfold isWordChar at h
  simp only [Bool.or_eq_true, Bool.and_eq_true, decide_eq_true_eq, beq_iff_eq] at h
  rcases h with ((h | h) | h) | h
  · have h1 : 65 ≤ c.toNat := h.1
    have h2 : c.toNat ≤ 90 := h.2
    omega
  · have h1 : 97 ≤ c.toNat := h.1
    have h2 : c.toNat ≤ 122 := h.2
    omega
  · have h1 : 48 ≤ c.toNat := h.1
    have h2 : c.toNat ≤ 57 := h.2
    omega
  · subst h
    decide

theorem isJsWS_toNat {c : Char} (h : isJsWS c = true) :
    c.toNat ≤ 32 ∨ 160 ≤ c.toNat := by
  unfold isJsWS at h
  simp only [Bool.or_eq_true, Bool.and_eq_true, decide_eq_true_eq, beq_iff_eq] at h
  rcases h with ((((((((((((((h | h) | h) | h) | h) | h) | h) | h) | h) | h) | h) | h) | h) | h) | h)
  all_goals first
    | (subst h; decide)
    | omega

theorem isWordChar_not_ws {c : Char} (h : isWordChar c = true) : isJsWS c = false := by
  cases hx : isJsWS c with
  | false => rfl
  | true =>
    exfalso
    have hn := isJsWS_toNat hx
    have hb := isWordChar_toNat h
    omega

theorem normalize_fixed {r : JStr}
    (h1 : ∀ c ∈ r, jsToLower c = c ∧ (isWordChar c = true ∨ c = ' '))
    (h2 : List.Chain' NoWSPair r)
    (h3 : ∀ c, r.head? = some c → isJsWS c = false)
    (h4 : ∀ c, r.getLast? = some c → isJsWS c = false) :
    normalizeText r = r := by
  have hmapgen : ∀ (l : JStr), (∀ c ∈ l, jsToLower c = c) → l.map jsToLower = l := by
    intro l
    induction l with
    | nil => intro _; rfl
    | cons a as ih =>
      intro h
      rw [List.map_cons, h a (List.mem_cons_self a as),
        ih fun c hc => h c (List.mem_cons_of_mem _ hc)]
  have hmap : r.map jsToLower = r := hmapgen r fun c hc => (h1 c hc).1
  have hfilter : r.filter (fun c => isWordChar c || isJsWS c) = r := by
    rw [List.filter_eq_self]
    intro c hc
    rcases (h1 c hc).2 with hw | hw
    · simp [hw]
    · subst hw
      decide
  have hws : ∀ c ∈ r, isJsWS c = true → c = ' ' := by
    intro c hc hcw
    rcases (h1 c hc).2 with hw | hw
    · rw [isWordChar_not_ws hw] at hcw
      exact absurd hcw (by simp)
    · exact hw
  unfold normalizeText collapseWS
  rw [hmap, hfilter, (collapseWSAux_id hws h2).1]
  unfold jsTrim
  rw [dropWhile_eq_self_of_head h3]
  rw [dropWhile_eq_self_of_head (by
    intro c hc
    rw [List.head?_reverse] at hc
    exact h4 c hc)]
  exact List.reverse_reverse r

/-- C9: text normalization is idempotent: applying `normalizeText`
twice gives the same result as applying it once. -/
theorem C9_normalizeText_idempotent (t : JStr) :
    normalizeText (normalizeText t) = normalizeText t := by
  obtain ⟨h1, h2, h3, h4⟩ := normalizeText_out t
  exact normalize_fixed h1 h2 h3 h4

/-- C1 (claim refuted by the code): the text `"!!!"` normalizes to the
empty string, yet `findBestMatch` returns `true` on the medication
header variants at the call-site threshold 0.5, because the empty
normalized string is a substring of every variant; the claim requires
`false` for every variant set and every threshold. -/
theorem C1_empty_normalized_line_matches :
    normalizeText (str "!!!") = [] ∧
    findBestMatch (str "!!!") medHeaders (1/2) = true := by
  constructor
  · decide
  · with_unfolding_all rfl

/-- C7: on the specification example, the medication extractor returns
exactly `["Aspirin 81mg", "Lisinopril 10mg"]`; extraction stops at the
`LAB RESULTS` line, so nothing at or after it is included. -/
theorem C7_medication_section_example :
    extractMedications
      (str "MEDICATIONS:\nA) Aspirin 81mg\nB. Lisinopril 10mg\nLAB RESULTS:\n...") =
      [str "Aspirin 81mg", str "Lisinopril 10mg"] := by
  with_unfolding_all rfl

theorem sectionScan_mem {headers endKws : List JStr} :
    ∀ {lines : List JStr} {inSec : Bool} {m : JStr},
    m ∈ sectionScan headers endKws lines inSec →
    2 < m.length ∧ isBareHeader m = false := by
  intro lines
  induction lines with
  | nil =>
    intro inSec m h
    simp [sectionScan] at h
  | cons l ls ih =>
    intro inSec m h
    unfold sectionScan at h
    split at h
    · exact ih h
    · split at h
      · simp at h
      · split at h
        · dsimp only at h
          split at h
          · rename_i hguard
            rw [Bool.and_eq_true, decide_eq_true_eq, Bool.not_eq_true'] at hguard
            rcases List.mem_cons.mp h with h1 | h1
            · subst h1
              exact hguard
            · exact ih h1
          · exact ih h
        · exact ih h

/-- C10: every element of the medication list has length strictly
greater than 2 and is not a bare `Label:` header; in particular the
empty string never occurs. -/
theorem C10_extractMedications_elements (text : JStr) :
    ∀ m ∈ extractMedications text,
      2 < m.length ∧ isBareHeader m = false ∧ m ≠ [] := by
  intro m hm
  unfold extractMedications at hm
  obtain ⟨h1, h2⟩ := sectionScan_mem hm
  refine ⟨h1, h2, ?_⟩
  intro hcon
  subst hcon
  simp at h1

/-- Witness for C10 at a concrete input and element. -/
theorem C10_extractMedications_elements_witness :
    str "Aspirin 81mg" ∈ extractMedications
      (str "MEDICATIONS:\nA) Aspirin 81mg\nB. Lisinopril 10mg\nLAB RESULTS:\n...") ∧
    2 < (str "Aspirin 81mg").length ∧ isBareHeader (str "Aspirin 81mg") = false ∧
    str "Aspirin 81mg" ≠ [] := by
  have hmem : str "Aspirin 81mg" ∈ extractMedications
      (str "MEDICATIONS:\nA) Aspirin 81mg\nB. Lisinopril 10mg\nLAB RESULTS:\n...") := by
    with_unfolding_all
      exact List.mem_cons_self _ _
  exact ⟨hmem, C10_extractMedications_elements _ _ hmem⟩

theorem histCdf_mono (lum : List ℕ) {u v : ℕ} (h : u ≤ v) :
    histCdf lum u ≤ histCdf lum v := by
  induction v with
  | zero =>
    rw [Nat.le_zero.mp h]
  | succ v ih =>
    rcases Nat.lt_or_ge u (v + 1) with h1 | h1
    · have h2 := ih (Nat.lt_succ_iff.mp h1)
      have h3 : histCdf lum (v + 1) = histCdf lum v + lum.count (v + 1) := rfl
      omega
    · rw [Nat.le_antisymm h h1]

theorem countP_le_succ (as : List ℕ) (v : ℕ) :
    as.countP (fun x => decide (x ≤ v + 1)) =
    as.countP (fun x => decide (x ≤ v)) + as.countP (fun x => x == v + 1) := by
  induction as with
  | nil => rfl
  | cons a as ih =>
    rw [List.countP_cons, List.countP_cons, List.countP_cons, ih]
    by_cases h1 : a ≤ v
    · have h2 : a ≤ v + 1 := by omega
      have h3 : (a == v + 1) = false := by
        simp only [beq_eq_false_iff_ne, ne_eq]
        omega
      simp [h1, h2, h3]
      omega
    · by_cases h2 : a = v + 1
      · subst h2
        simp [h1]
        omega
      · have h3 : ¬(a ≤ v + 1) := by omega
        have h4 : (a == v + 1) = false := by
          simp only [beq_eq_false_iff_ne, ne_eq]
          omega
        simp [h1, h3, h4]

theorem histCdf_eq_countP (lum : List ℕ) (v : ℕ) :
    histCdf lum v = lum.countP (fun x => decide (x ≤ v)) := by
  induction v with
  | zero =>
    show lum.count 0 = _
    rw [List.count]
    congr 1
    funext x
    by_cases hx : x = 0
    · subst hx; rfl
    · simp [hx, Nat.le_zero]
  | succ v ih =>
    show histCdf lum v + lum.count (v + 1) = _
    rw [ih, List.count, countP_le_succ]

theorem histCdf_le_length (lum : List ℕ) (v : ℕ) : histCdf lum v ≤ lum.length := by
  rw [histCdf_eq_countP]
  exact List.countP_le_length _

theorem cdfMin_le_length (lum : List ℕ) : cdfMin lum ≤ lum.length := by
  unfold cdfMin
  cases hf : ((List.range 256).map (histCdf lum)).find? (fun t => decide (0 < t)) with
  | none => simp
  | some a =>
    have hmem := List.mem_of_find?_eq_some hf
    obtain ⟨k, _, hk⟩ := List.mem_map.mp hmem
    simp only [Option.getD_some]
    rw [← hk]
    exact histCdf_le_length lum k

theorem roundHalfEven_int (a : ℤ) : roundHalfEven (a : ℚ) = a := by
  unfold roundHalfEven
  rw [Int.floor_intCast, sub_self, if_pos]
  norm_num

theorem clampUint8_int (a : ℤ) :
    clampUint8 (JVal.fin (a : ℚ)) =
      if a ≤ 0 then 0 else if 255 ≤ a then 255 else a.toNat := by
  simp only [clampUint8]
  rw [roundHalfEven_int]
  simp only [show ((a : ℚ) ≤ 0 ↔ a ≤ 0) from by exact_mod_cast Iff.rfl,
    show ((255 : ℚ) ≤ (a : ℚ) ↔ (255 : ℤ) ≤ a) from by exact_mod_cast Iff.rfl]

theorem clampUint8_mono_int {a b : ℤ} (h : a ≤ b) :
    clampUint8 (JVal.fin (a : ℚ)) ≤ clampUint8 (JVal.fin (b : ℚ)) := by
  rw [clampUint8_int, clampUint8_int]
  split_ifs <;> omega

theorem eqRemap_degenerate {N : ℚ} (hN : N ≤ 0) :
    clampUint8 (JVal.round (JVal.mul (JVal.div (JVal.fin N) (JVal.fin 0)) (JVal.fin 255))) = 0 := by
  rcases lt_or_eq_of_le hN with hlt | heq
  · have h1 : JVal.div (JVal.fin N) (JVal.fin 0) = JVal.ninf := by
      simp only [JVal.div, if_pos rfl]
      rw [if_neg (ne_of_lt hlt), if_neg (not_lt_of_lt hlt)]
      exact if_pos trivial
    rw [h1]
    have h2 : JVal.mul JVal.ninf (JVal.fin 255) = JVal.ninf := by
      simp only [JVal.mul]
      norm_num
    rw [h2]
    rfl
  · rw [heq]
    have h1 : JVal.div (JVal.fin 0) (JVal.fin 0) = JVal.nan := by
      simp [JVal.div]
    rw [h1]
    rfl

/-- C6: the histogram-equalization remap of `preprocessImage` is
monotone: for a grayscale image whose pixel count matches the canvas
dimensions, a strictly higher pre-equalization luma value never maps to
a strictly lower post-equalization value. -/
theorem C6_equalization_monotone (w h : ℕ) (lum : List ℕ)
    (hlen : lum.length = w * h) {u v : ℕ} (huv : u < v) :
    eqRemap w h lum u ≤ eqRemap w h lum v := by
  have hcuv : histCdf lum u ≤ histCdf lum v := histCdf_mono lum (le_of_lt huv)
  have hcmle : cdfMin lum ≤ w * h := hlen ▸ cdfMin_le_length lum
  unfold eqRemap
  by_cases hD : (((w * h : ℕ) : ℚ)) - ((cdfMin lum : ℕ) : ℚ) = 0
  · have hEq : (w * h : ℕ) = cdfMin lum := by exact_mod_cast sub_eq_zero.mp hD
    have hNu : ((histCdf lum u : ℕ) : ℚ) - ((cdfMin lum : ℕ) : ℚ) ≤ 0 := by
      have h1 := histCdf_le_length lum u
      rw [hlen, hEq] at h1
      have : ((histCdf lum u : ℕ) : ℚ) ≤ ((cdfMin lum : ℕ) : ℚ) := by exact_mod_cast h1
      linarith
    have hNv : ((histCdf lum v : ℕ) : ℚ) - ((cdfMin lum : ℕ) : ℚ) ≤ 0 := by
      have h1 := histCdf_le_length lum v
      rw [hlen, hEq] at h1
      have : ((histCdf lum v : ℕ) : ℚ) ≤ ((cdfMin lum : ℕ) : ℚ) := by exact_mod_cast h1
      linarith
    rw [hD, eqRemap_degenerate hNu, eqRemap_degenerate hNv]
  · have hDpos : 0 < (((w * h : ℕ) : ℚ)) - ((cdfMin lum : ℕ) : ℚ) := by
      have h1 : ((cdfMin lum : ℕ) : ℚ) ≤ (((w * h : ℕ) : ℚ)) := by exact_mod_cast hcmle
      have h2 : 0 ≤ (((w * h : ℕ) : ℚ)) - ((cdfMin lum : ℕ) : ℚ) := by linarith
      exact lt_of_le_of_ne h2 (Ne.symm hD)
    have hdiv : ∀ x : ℕ,
        JVal.mul (JVal.div (JVal.fin ((histCdf lum x : ℚ) - (cdfMin lum : ℚ)))
          (JVal.fin (((w * h : ℕ) : ℚ) - (cdfMin lum : ℚ)))) (JVal.fin 255) =
        JVal.fin (((histCdf lum x : ℚ) - (cdfMin lum : ℚ)) /
          (((w * h : ℕ) : ℚ) - (cdfMin lum : ℚ)) * 255) := by
      intro x
      simp only [JVal.div, if_neg hD, JVal.mul]
    rw [hdiv u, hdiv v]
    simp only [JVal.round]
    apply clampUint8_mono_int
    apply Int.floor_le_floor
    have hq : ((histCdf lum u : ℕ) : ℚ) ≤ ((histCdf lum v : ℕ) : ℚ) := by exact_mod_cast hcuv
    gcongr

/-- Witness for C6 at a concrete two-pixel image. -/
theorem C6_equalization_monotone_witness :
    ([0, 255] : List ℕ).length = 2 * 1 ∧ (0 : ℕ) < 1 ∧
    eqRemap 2 1 [0, 255] 0 ≤ eqRemap 2 1 [0, 255] 1 :=
  ⟨by decide, by decide,
    C6_equalization_monotone 2 1 [0, 255] (by decide) (by decide)⟩

/-- C2 (claim refuted by the code): `blockSize / 2` is the fractional
7.5, so the adaptive-threshold window bounds are fractional; on any
decodable image of height at least 9 the binarization loop reads the
integral table at a fractional row index, gets `undefined`, and the
following column access throws, rejecting the whole preprocessing. At
the failing input, a 1 by 9 all-black image, no output image is
produced, where the claim requires a same-size strictly two-valued
image. -/
theorem C2_preprocess_throws_on_height_9 :
    preprocessImage 1 9 (List.replicate 9 (0, 0, 0)) = Except.error () := by
  with_unfolding_all rfl

/-- C4 counterexample: with every explicit argument fixed, the spatial
extractor returns different values under different states of the
process-global `__ocrData`, so its result is determined by that shared
singleton; the code has no document parameter at all, refuting the
claim that the spatial data is threaded as an explicit document value
and never a shared singleton. -/
theorem C4_spatial_reads_shared_global :
    extractFieldWithSpatialAwareness (some (demoDoc "Bob")) patientNameVariants
        (fun _ => none) 60 = some (str "Bob") ∧
    extractFieldWithSpatialAwareness (some (demoDoc "Alice")) patientNameVariants
        (fun _ => none) 60 = some (str "Alice") ∧
    extractFieldWithSpatialAwareness (some (demoDoc "Bob")) patientNameVariants
        (fun _ => none) 60 ≠
      extractFieldWithSpatialAwareness (some (demoDoc "Alice")) patientNameVariants
        (fun _ => none) 60 := by
  refine ⟨?_, ?_, ?_⟩
  · with_unfolding_all rfl
  · with_unfolding_all rfl
  · intro hcon
    have h1 : extractFieldWithSpatialAwareness (some (demoDoc "Bob")) patientNameVariants
        (fun _ => none) 60 = some (str "Bob") := by with_unfolding_all rfl
    have h2 : extractFieldWithSpatialAwareness (some (demoDoc "Alice")) patientNameVariants
        (fun _ => none) 60 = some (str "Alice") := by with_unfolding_all rfl
    rw [h1, h2] at hcon
    simp [str] at hcon

/-- C4 amended: the spatial extractor reads the process-global
`__ocrData` instead of an explicit document parameter; modelling that
global as an explicit input, extraction is a pure function of it: an
unset global returns null immediately (the caller then falls back to
text-based extraction), and equal global states give equal results. -/
theorem C4_spatial_function_of_global :
    (∀ (variants : List JStr) (p : JStr → Option JStr) (m : ℚ),
      extractFieldWithSpatialAwareness none variants p m = none) ∧
    (∀ (g g' : Option GlobalOCRData) (variants : List JStr)
      (p : JStr → Option JStr) (m : ℚ), g = g' →
      extractFieldWithSpatialAwareness g variants p m =
        extractFieldWithSpatialAwareness g' variants p m) := by
  constructor
  · intro variants p m
    rfl
  · intro g g' variants p m hg
    rw [hg]

/-- Witness for the amended C4 statement at concrete inputs. -/
theorem C4_spatial_function_of_global_witness :
    extractFieldWithSpatialAwareness none patientNameVariants (fun _ => none) 60 = none ∧
    extractFieldWithSpatialAwareness (some (demoDoc "Bob")) patientNameVariants
        (fun _ => none) 60 =
      extractFieldWithSpatialAwareness (some (demoDoc "Bob")) patientNameVariants
        (fun _ => none) 60 :=
  ⟨C4_spatial_function_of_global.1 _ _ _,
   C4_spatial_function_of_global.2 _ _ _ _ _ rfl⟩

theorem jsOrElse_spec (o : Option JStr) (d : JStr) (hd : d ≠ []) :
    (jsOrElse o d = d ∨ ∃ s, s ≠ [] ∧ jsOrElse o d = s ∧ o = some s) ∧
    jsOrElse o d ≠ [] := by
  cases o with
  | none => exact ⟨Or.inl rfl, hd⟩
  | some s =>
    by_cases hs : s.isEmpty
    · constructor
      · left
        simp [jsOrElse, hs]
      · simp [jsOrElse, hs]
        exact hd
    · constructor
      · right
        refine ⟨s, ?_, ?_, rfl⟩
        · intro hcon
          subst hcon
          simp at hs
        · simp [jsOrElse, hs]
      · simp [jsOrElse, hs]
        intro hcon
        subst hcon
        simp at hs

/-- C8: an extraction miss is not an error: `parseEMRText` always
returns a full record in which the patient name is an extracted
(nonempty) value or the sentinel `"Unknown"`, and the id, date of birth
and diagnosis are extracted values or the sentinel `"N/A"`; no field is
ever null, absent or empty, and the medication and lab-result lists are
still extracted from the cleaned text. -/
theorem C8_parseEMRText_miss_is_not_error (ocrData : Option GlobalOCRData)
    (pats : FieldPatterns) (rawText : JStr) :
    ((parseEMRText ocrData pats rawText).patientName = str "Unknown" ∨
      ∃ s, s ≠ [] ∧ (parseEMRText ocrData pats rawText).patientName = s ∧
        jsOr (extractFieldWithSpatialAwareness ocrData patientNameVariants pats.patientName 60)
          (extractField (cleanOCR rawText) patientNameVariants pats.patientName) = some s) ∧
    ((parseEMRText ocrData pats rawText).patientId = str "N/A" ∨
      ∃ s, s ≠ [] ∧ (parseEMRText ocrData pats rawText).patientId = s ∧
        jsOr (extractFieldWithSpatialAwareness ocrData patientIdVariants pats.patientId 60)
          (extractField (cleanOCR rawText) patientIdVariants pats.patientId) = some s) ∧
    ((parseEMRText ocrData pats rawText).dateOfBirth = str "N/A" ∨
      ∃ s, s ≠ [] ∧ (parseEMRText ocrData pats rawText).dateOfBirth = s ∧
        jsOr (extractFieldWithSpatialAwareness ocrData dateOfBirthVariants pats.dateOfBirth 60)
          (extractField (cleanOCR rawText) dateOfBirthVariants pats.dateOfBirth) = some s) ∧
    ((parseEMRText ocrData pats rawText).diagnosis = str "N/A" ∨
      ∃ s, s ≠ [] ∧ (parseEMRText ocrData pats rawText).diagnosis = s ∧
        jsOr (extractFieldWithSpatialAwareness ocrData diagnosisVariants pats.diagnosis 60)
          (extractField (cleanOCR rawText) diagnosisVariants pats.diagnosis) = some s) ∧
    (parseEMRText ocrData pats rawText).patientName ≠ [] ∧
    (parseEMRText ocrData pats rawText).patientId ≠ [] ∧
    (parseEMRText ocrData pats rawText).dateOfBirth ≠ [] ∧
    (parseEMRText ocrData pats rawText).diagnosis ≠ [] ∧
    (parseEMRText ocrData pats rawText).medications = extractMedications (cleanOCR rawText) ∧
    (parseEMRText ocrData pats rawText).labResults = extractLabResults (cleanOCR rawText) := by
  have hUnknown : str "Unknown" ≠ ([] : JStr) := by decide
  have hNA : str "N/A" ≠ ([] : JStr) := by decide
  have h1 := jsOrElse_spec
    (jsOr (extractFieldWithSpatialAwareness ocrData patientNameVariants pats.patientName 60)
      (extractField (cleanOCR rawText) patientNameVariants pats.patientName))
    (str "Unknown") hUnknown
  have h2 := jsOrElse_spec
    (jsOr (extractFieldWithSpatialAwareness ocrData patientIdVariants pats.patientId 60)
      (extractField (cleanOCR rawText) patientIdVariants pats.patientId))
    (str "N/A") hNA
  have h3 := jsOrElse_spec
    (jsOr (extractFieldWithSpatialAwareness ocrData dateOfBirthVariants pats.dateOfBirth 60)
      (extractField (cleanOCR rawText) dateOfBirthVariants pats.dateOfBirth))
    (str "N/A") hNA
  have h4 := jsOrElse_spec
    (jsOr (extractFieldWithSpatialAwareness ocrData diagnosisVariants pats.diagnosis 60)
      (extractField (cleanOCR rawText) diagnosisVariants pats.diagnosis))
    (str "N/A") hNA
  exact ⟨h1.1, h2.1, h3.1, h4.1, h1.2, h2.2, h3.2, h4.2, rfl, rfl⟩

theorem sortCands_spec (l : List Cand) :
    (sortCands l = [] → l = []) ∧
    (∀ h rest, sortCands l = h :: rest →
      h ∈ l ∧ (∀ c ∈ l, c.confidence ≤ h.confidence) ∧
      (List.Pairwise (fun a b : Cand => a.lineNumber ≤ b.lineNumber) l →
        ∀ c ∈ l, c.confidence = h.confidence → h.lineNumber ≤ c.lineNumber)) := by
  induction l with
  | nil =>
    refine ⟨fun _ => rfl, fun h rest hcon => ?_⟩
    simp [sortCands] at hcon
  | cons a l ih =>
    constructor
    · intro hnil
      exfalso
      have hne : insertCand a (sortCands l) ≠ [] := by
        cases sortCands l with
        | nil => simp [insertCand]
        | cons b s =>
          unfold insertCand
          split <;> simp
      exact hne hnil
    · intro h rest hcons
      have hcons2 : insertCand a (sortCands l) = h :: rest := hcons
      cases hs : sortCands l with
      | nil =>
        rw [hs] at hcons2
        have hl : l = [] := ih.1 hs
        subst hl
        simp only [insertCand, List.cons.injEq] at hcons2
        obtain ⟨hha, _⟩ := hcons2
        subst hha
        refine ⟨by simp, ?_, ?_⟩
        · intro c hc
          rw [List.mem_singleton.mp hc]
        · intro _ c hc _
          rw [List.mem_singleton.mp hc]
      | cons b s =>
        rw [hs] at hcons2
        unfold insertCand at hcons2
        by_cases hconf : b.confidence ≤ a.confidence
        · rw [if_pos hconf] at hcons2
          injection hcons2 with h1 _
          subst h1
          have ihb := ih.2 b s hs
          refine ⟨List.mem_cons_self _ _, ?_, ?_⟩
          · intro c hc
            rcases List.mem_cons.mp hc with hca | hcl
            · subst hca
              exact le_refl _
            · exact le_trans (ihb.2.1 c hcl) hconf
          · intro hpw c hc _
            rcases List.mem_cons.mp hc with hca | hcl
            · subst hca
              exact le_refl _
            · exact (List.pairwise_cons.mp hpw).1 c hcl
        · rw [if_neg hconf] at hcons2
          injection hcons2 with h1 _
          subst h1
          have ihb := ih.2 b s hs
          push_neg at hconf
          refine ⟨List.mem_cons_of_mem _ ihb.1, ?_, ?_⟩
          · intro c hc
            rcases List.mem_cons.mp hc with hca | hcl
            · subst hca
              exact le_of_lt hconf
            · exact ihb.2.1 c hcl
          · intro hpw c hc hcf
            rcases List.mem_cons.mp hc with hca | hcl
            · subst hca
              exact absurd hcf (ne_of_lt hconf)
            · exact ihb.2.2 (List.Pairwise.of_cons hpw) c hcl hcf

theorem strat1_lineNumber {lines variants : List JStr} {i : ℕ} {c : Cand}
    (hc : c ∈ strat1 lines variants i) : c.lineNumber = (i : ℤ) := by
  simp only [strat1] at hc
  split at hc
  · simp at hc
  · split at hc
    · simp at hc
    · split at hc
      · rw [List.mem_singleton.mp hc]
      · split at hc
        · rw [List.mem_singleton.mp hc]
        · simp at hc

theorem strat2At_lineNumber {lines variants : List JStr} {i : ℕ} {words : List JStr}
    {wc : ℕ} {c : Cand} (hc : c ∈ strat2At lines variants i words wc) :
    c.lineNumber = (i : ℤ) := by
  simp only [strat2At] at hc
  split at hc
  · simp at hc
  · split at hc
    · split at hc
      · rw [List.mem_singleton.mp hc]
      · simp at hc
    · split at hc
      · rw [List.mem_singleton.mp hc]
      · simp at hc

theorem lineCands_lineNumber {lines variants : List JStr} {i : ℕ} {c : Cand}
    (hc : c ∈ lineCands lines variants i) : c.lineNumber = (i : ℤ) := by
  simp only [lineCands] at hc
  split at hc
  · simp at hc
  · rcases List.mem_append.mp hc with h1 | h1
    · exact strat1_lineNumber h1
    · simp only [strat2] at h1
      obtain ⟨wc, _, hwc⟩ := List.mem_flatMap.mp h1
      exact strat2At_lineNumber hwc

theorem pairwise_const {l : List Cand} {i : ℤ} (h : ∀ c ∈ l, c.lineNumber = i) :
    List.Pairwise (fun a b : Cand => a.lineNumber ≤ b.lineNumber) l := by
  induction l with
  | nil => exact List.Pairwise.nil
  | cons a l ih =>
    refine List.Pairwise.cons ?_ (ih fun c hc => h c (List.mem_cons_of_mem _ hc))
    intro b hb
    rw [h a (List.mem_cons_self _ _), h b (List.mem_cons_of_mem _ hb)]

theorem pairwise_flatMap_range {f : ℕ → List Cand} (n : ℕ)
    (hsame : ∀ i c, c ∈ f i → c.lineNumber = (i : ℤ)) :
    List.Pairwise (fun a b : Cand => a.lineNumber ≤ b.lineNumber)
      ((List.range n).flatMap f) := by
  induction n with
  | zero => exact List.Pairwise.nil
  | succ n ih =>
    rw [List.range_succ, List.flatMap_append]
    rw [List.pairwise_append]
    refine ⟨ih, ?_, ?_⟩
    · simp only [List.flatMap_cons, List.flatMap_nil, List.append_nil]
      exact pairwise_const (fun c hc => hsame n c hc)
    · intro a ha b hb
      simp only [List.flatMap_cons, List.flatMap_nil, List.append_nil] at hb
      obtain ⟨i, hi, hif⟩ := List.mem_flatMap.mp ha
      rw [hsame i a hif, hsame n b hb]
      exact_mod_cast le_of_lt (List.mem_range.mp hi)

theorem extractCandidates_pairwise (rawText : JStr) (variants : List JStr)
    (pattern : JStr → Option JStr) :
    List.Pairwise (fun a b : Cand => a.lineNumber ≤ b.lineNumber)
      (extractCandidates rawText variants pattern) := by
  unfold extractCandidates
  rw [List.pairwise_append]
  refine ⟨?_, ?_, ?_⟩
  · rcases hp : pattern rawText with _ | g
    · exact List.Pairwise.nil
    · dsimp only
      split
      · exact List.pairwise_singleton _ _
      · exact List.Pairwise.nil
  · exact pairwise_flatMap_range _ (fun i c hc => lineCands_lineNumber hc)
  · intro a ha b hb
    have hbn : b.lineNumber = _ :=
      lineCands_lineNumber (List.mem_flatMap.mp hb).choose_spec.2
    have han : a.lineNumber = -1 := by
      rcases hp : pattern rawText with _ | g
      · rw [hp] at ha
        simp at ha
      · rw [hp] at ha
        dsimp only at ha
        split at ha
        · rw [List.mem_singleton.mp ha]
        · simp at ha
    obtain ⟨i, _, hif⟩ := List.mem_flatMap.mp hb
    rw [han, lineCands_lineNumber hif]
    omega

/-- C3: `extractField` returns null exactly when no strategy produced a
candidate; otherwise it returns the value of a candidate of maximal
confidence, and among equal maximal confidence the one with the
smallest (earliest) source line index. -/
theorem C3_extractField_ranking (rawText : JStr) (variants : List JStr)
    (pattern : JStr → Option JStr) :
    (extractField rawText variants pattern = none ↔
      extractCandidates rawText variants pattern = []) ∧
    (∀ v, extractField rawText variants pattern = some v →
      ∃ c ∈ extractCandidates rawText variants pattern, c.value = v ∧
        (∀ c2 ∈ extractCandidates rawText variants pattern,
          c2.confidence ≤ c.confidence) ∧
        (∀ c2 ∈ extractCandidates rawText variants pattern,
          c2.confidence = c.confidence → c.lineNumber ≤ c2.lineNumber)) := by
  constructor
  · constructor
    · intro hn
      unfold extractField at hn
      cases hs : sortCands (extractCandidates rawText variants pattern) with
      | nil => exact (sortCands_spec _).1 hs
      | cons b s =>
        rw [hs] at hn
        simp at hn
    · intro he
      unfold extractField
      rw [he]
      rfl
  · intro v hv
    unfold extractField at hv
    cases hs : sortCands (extractCandidates rawText variants pattern) with
    | nil =>
      rw [hs] at hv
      simp at hv
    | cons b s =>
      rw [hs] at hv
      simp only [Option.some.injEq] at hv
      obtain ⟨hmem, hmax, htie⟩ := (sortCands_spec _).2 b s hs
      exact ⟨b, hmem, hv ▸ rfl, hmax, htie (extractCandidates_pairwise rawText variants pattern)⟩

/-- Witness for C3 at a concrete input. -/
theorem C3_extractField_ranking_witness :
    ∃ c ∈ extractCandidates (str "Name: Bob") [str "name"] (fun _ => none),
      c.value = str "Bob" ∧
      (∀ c2 ∈ extractCandidates (str "Name: Bob") [str "name"] (fun _ => none),
        c2.confidence ≤ c.confidence) ∧
      (∀ c2 ∈ extractCandidates (str "Name: Bob") [str "name"] (fun _ => none),
        c2.confidence = c.confidence → c.lineNumber ≤ c2.lineNumber) :=
  (C3_extractField_ranking (str "Name: Bob") [str "name"] (fun _ => none)).2
    (str "Bob") (by with_unfolding_all rfl)

theorem lev_nil_left (ys : JStr) : lev [] ys = ys.length := by
  simp [lev]

theorem lev_nil_right (xs : JStr) : lev xs [] = xs.length := by
  cases xs <;> simp [lev]

theorem lev_cons_cons (x y : Char) (xs ys : JStr) :
    lev (x :: xs) (y :: ys) =
      if x = y then lev xs ys
      else 1 + min (min (lev xs (y :: ys)) (lev (x :: xs) ys)) (lev xs ys) := by
  rw [lev]

theorem lev_bounds :
    ∀ n xs ys, List.length xs + List.length ys ≤ n →
      (∀ a : Char, lev (a :: xs) ys ≤ lev xs ys + 1) ∧
      (∀ b : Char, lev xs (b :: ys) ≤ lev xs ys + 1) ∧
      (∀ y : Char, lev xs ys ≤ lev xs (y :: ys) + 1) ∧
      (∀ x : Char, lev xs ys ≤ lev (x :: xs) ys + 1) := by
  intro n
  induction n with
  | zero =>
    intro xs ys hlen
    have hx : xs = [] := by
      cases xs with
      | nil => rfl
      | cons _ _ => simp at hlen
    have hy : ys = [] := by
      cases ys with
      | nil => rfl
      | cons _ _ => simp at hlen
    subst hx hy
    refine ⟨fun a => ?_, fun b => ?_, fun y => ?_, fun x => ?_⟩
    all_goals simp only [lev_nil_left, lev_nil_right, List.length_cons, List.length_nil]
    all_goals omega
  | succ n ih =>
    intro xs ys hlen
    refine ⟨?_, ?_, ?_, ?_⟩
    · -- D1 : lev (a :: xs) ys ≤ lev xs ys + 1
      intro a
      cases ys with
      | nil =>
        rw [lev_nil_right, lev_nil_right]
        simp
      | cons y ys' =>
        rw [lev_cons_cons]
        by_cases hay : a = y
        · rw [if_pos hay]
          have hE := (ih xs ys' (by simp at hlen ⊢; omega)).2.2.1 y
          omega
        · rw [if_neg hay]
          have h1 : min (min (lev xs (y :: ys')) (lev (a :: xs) ys')) (lev xs ys') ≤
              lev xs (y :: ys') := le_trans (min_le_left _ _) (min_le_left _ _)
          omega
    · -- D2 : lev xs (b :: ys) ≤ lev xs ys + 1
      intro b
      cases xs with
      | nil =>
        rw [lev_nil_left, lev_nil_left]
        simp
      | cons x xs' =>
        rw [lev_cons_cons]
        by_cases hxb : x = b
        · rw [if_pos hxb]
          have hE2 := (ih xs' ys (by simp at hlen ⊢; omega)).2.2.2 x
          omega
        · rw [if_neg hxb]
          have h1 : min (min (lev xs' (b :: ys)) (lev (x :: xs') ys)) (lev xs' ys) ≤
              lev (x :: xs') ys := le_trans (min_le_left _ _) (min_le_right _ _)
          omega
    · -- E : lev xs ys ≤ lev xs (y :: ys) + 1
      intro y
      cases xs with
      | nil =>
        rw [lev_nil_left, lev_nil_left]
        simp only [List.length_cons]
        omega
      | cons x xs' =>
        rw [lev_cons_cons]
        by_cases hxy : x = y
        · rw [if_pos hxy]
          have hD1 := (ih xs' ys (by simp at hlen ⊢; omega)).1 x
          omega
        · rw [if_neg hxy]
          have hD1 := (ih xs' ys (by simp at hlen ⊢; omega)).1 x
          have hE := (ih xs' ys (by simp at hlen ⊢; omega)).2.2.1 y
          have hmin := min_choice (min (lev xs' (y :: ys)) (lev (x :: xs') ys)) (lev xs' ys)
          have hmin2 := min_choice (lev xs' (y :: ys)) (lev (x :: xs') ys)
          omega
    · -- E2 : lev xs ys ≤ lev (x :: xs) ys + 1
      intro x
      cases ys with
      | nil =>
        rw [lev_nil_right, lev_nil_right]
        simp only [List.length_cons]
        omega
      | cons y ys' =>
        rw [lev_cons_cons]
        by_cases hxy : x = y
        · rw [if_pos hxy]
          have hD2 := (ih xs ys' (by simp at hlen ⊢; omega)).2.1 y
          omega
        · rw [if_neg hxy]
          have hD2 := (ih xs ys' (by simp at hlen ⊢; omega)).2.1 y
          have hE2 := (ih xs ys' (by simp at hlen ⊢; omega)).2.2.2 x
          have hmin := min_choice (min (lev xs (y :: ys')) (lev (x :: xs) ys')) (lev xs ys')
          have hmin2 := min_choice (lev xs (y :: ys')) (lev (x :: xs) ys')
          omega

theorem Edits_lev_le {xs ys : JStr} {n : ℕ} (h : Edits xs ys n) : lev xs ys ≤ n := by
  induction h with
  | nil => simp [lev_nil_left]
  | @copy c xs ys n h ih =>
    rw [lev_cons_cons, if_pos rfl]
    exact ih
  | @subst a b xs ys n h ih =>
    by_cases hab : a = b
    · subst hab
      rw [lev_cons_cons, if_pos rfl]
      omega
    · rw [lev_cons_cons, if_neg hab]
      have hm : min (min (lev xs (b :: ys)) (lev (a :: xs) ys)) (lev xs ys) ≤ lev xs ys :=
        min_le_right _ _
      omega
  | @del a xs ys n h ih =>
    have hD1 := (lev_bounds (xs.length + ys.length) xs ys le_rfl).1 a
    omega
  | @ins b xs ys n h ih =>
    have hD2 := (lev_bounds (xs.length + ys.length) xs ys le_rfl).2.1 b
    omega

theorem Edits_nil_left (ys : JStr) : Edits [] ys ys.length := by
  induction ys with
  | nil => exact Edits.nil
  | cons y ys ih => exact Edits.ins y ih

theorem Edits_nil_right (xs : JStr) : Edits xs [] xs.length := by
  induction xs with
  | nil => exact Edits.nil
  | cons x xs ih => exact Edits.del x ih

theorem lev_achievable : ∀ n xs ys, List.length xs + List.length ys ≤ n →
    Edits xs ys (lev xs ys) := by
  intro n
  induction n with
  | zero =>
    intro xs ys hlen
    have hx : xs = [] := by
      cases xs with
      | nil => rfl
      | cons _ _ => simp at hlen
    have hy : ys = [] := by
      cases ys with
      | nil => rfl
      | cons _ _ => simp at hlen
    subst hx hy
    rw [lev_nil_left]
    exact Edits.nil
  | succ n ih =>
    intro xs ys hlen
    cases xs with
    | nil =>
      rw [lev_nil_left]
      exact Edits_nil_left ys
    | cons x xs' =>
      cases ys with
      | nil =>
        rw [lev_nil_right]
        exact Edits_nil_right _
      | cons y ys' =>
        rw [lev_cons_cons]
        by_cases hxy : x = y
        · rw [if_pos hxy]
          subst hxy
          exact Edits.copy x (ih xs' ys' (by simp at hlen ⊢; omega))
        · rw [if_neg hxy]
          have hA := ih xs' (y :: ys') (by simp at hlen ⊢; omega)
          have hB := ih (x :: xs') ys' (by simp at hlen ⊢; omega)
          have hC := ih xs' ys' (by simp at hlen ⊢; omega)
          rcases min_choice (min (lev xs' (y :: ys')) (lev (x :: xs') ys')) (lev xs' ys')
            with h1 | h1 <;> rw [h1]
          · rcases min_choice (lev xs' (y :: ys')) (lev (x :: xs') ys') with h2 | h2 <;> rw [h2]
            · rw [Nat.add_comm]
              exact Edits.del x hA
            · rw [Nat.add_comm]
              exact Edits.ins y hB
          · rw [Nat.add_comm]
            exact Edits.subst x y hC

theorem Edits_swap {xs ys : JStr} {n : ℕ} (h : Edits xs ys n) : Edits ys xs n := by
  induction h with
  | nil => exact Edits.nil
  | copy c _ ih => exact Edits.copy c ih
  | subst a b _ ih => exact Edits.subst b a ih
  | del a _ ih => exact Edits.ins a ih
  | ins b _ ih => exact Edits.del b ih

theorem Edits_snoc_copy {xs ys : JStr} {n : ℕ} (c : Char) (h : Edits xs ys n) :
    Edits (xs ++ [c]) (ys ++ [c]) n := by
  induction h with
  | nil => exact Edits.copy c Edits.nil
  | copy d _ ih => exact Edits.copy d ih
  | subst p q _ ih => exact Edits.subst p q ih
  | del p _ ih => exact Edits.del p ih
  | ins q _ ih => exact Edits.ins q ih

theorem Edits_snoc_subst {xs ys : JStr} {n : ℕ} (a b : Char) (h : Edits xs ys n) :
    Edits (xs ++ [a]) (ys ++ [b]) (n + 1) := by
  induction h with
  | nil => exact Edits.subst a b Edits.nil
  | copy d _ ih => exact Edits.copy d ih
  | subst p q _ ih => exact Edits.subst p q ih
  | del p _ ih => exact Edits.del p ih
  | ins q _ ih => exact Edits.ins q ih

theorem Edits_snoc_del {xs ys : JStr} {n : ℕ} (a : Char) (h : Edits xs ys n) :
    Edits (xs ++ [a]) ys (n + 1) := by
  induction h with
  | nil => exact Edits.del a Edits.nil
  | copy d _ ih => exact Edits.copy d ih
  | subst p q _ ih => exact Edits.subst p q ih
  | del p _ ih => exact Edits.del p ih
  | ins q _ ih => exact Edits.ins q ih

theorem Edits_snoc_ins {xs ys : JStr} {n : ℕ} (b : Char) (h : Edits xs ys n) :
    Edits xs (ys ++ [b]) (n + 1) := by
  induction h with
  | nil => exact Edits.ins b Edits.nil
  | copy d _ ih => exact Edits.copy d ih
  | subst p q _ ih => exact Edits.subst p q ih
  | del p _ ih => exact Edits.del p ih
  | ins q _ ih => exact Edits.ins q ih

theorem Edits_reverse {xs ys : JStr} {n : ℕ} (h : Edits xs ys n) :
    Edits xs.reverse ys.reverse n := by
  induction h with
  | copy c _ ih =>
    rw [List.reverse_cons, List.reverse_cons]
    exact Edits_snoc_copy c ih
  | nil => exact Edits.nil
  | subst a b _ ih =>
    rw [List.reverse_cons, List.reverse_cons]
    exact Edits_snoc_subst a b ih
  | del a _ ih =>
    rw [List.reverse_cons]
    exact Edits_snoc_del a ih
  | ins b _ ih =>
    rw [List.reverse_cons]
    exact Edits_snoc_ins b ih

theorem lev_reverse (xs ys : JStr) : lev xs.reverse ys.reverse = lev xs ys := by
  apply le_antisymm
  · exact Edits_lev_le (Edits_reverse (lev_achievable _ xs ys le_rfl))
  · have h := Edits_lev_le (Edits_reverse
      (lev_achievable _ xs.reverse ys.reverse le_rfl))
    rwa [List.reverse_reverse, List.reverse_reverse] at h

theorem lev_symm (xs ys : JStr) : lev xs ys = lev ys xs :=
  le_antisymm (Edits_lev_le (Edits_swap (lev_achievable _ ys xs le_rfl)))
    (Edits_lev_le (Edits_swap (lev_achievable _ xs ys le_rfl)))

theorem dpRow_length (s1 s2 : JStr) (i : ℕ) : (dpRow s1 s2 i).length = s1.length + 1 := by
  simp [dpRow]

theorem dpRow_getD (s1 s2 : JStr) (i : ℕ) {j : ℕ} (hj : j ≤ s1.length) :
    (dpRow s1 s2 i).getD j 0 = lev ((s2.take i).reverse) ((s1.take j).reverse) := by
  rw [List.getD_eq_getElem?_getD]
  unfold dpRow
  rw [List.getElem?_map, List.getElem?_range (by omega)]
  rfl

theorem take_reverse_cons {l : JStr} {k : ℕ} (hk : k < l.length) :
    (l.take (k + 1)).reverse = l.getD k ' ' :: (l.take k).reverse := by
  rw [List.take_succ, List.getElem?_eq_getElem hk]
  rw [List.getD_eq_getElem?_getD, List.getElem?_eq_getElem hk]
  simp

theorem dpRow_zero_getD (s1 s2 : JStr) {i : ℕ} (hi : i ≤ s2.length) :
    (dpRow s1 s2 i).getD 0 0 = i := by
  rw [dpRow_getD s1 s2 i (Nat.zero_le _)]
  simp only [List.take_zero, List.reverse_nil]
  rw [lev_nil_right]
  simp only [List.length_reverse, List.length_take]
  omega

theorem dpRow_rec (s1 s2 : JStr) {i j : ℕ} (hi1 : 1 ≤ i) (hi2 : i ≤ s2.length)
    (hj1 : 1 ≤ j) (hj2 : j ≤ s1.length) :
    lev ((s2.take i).reverse) ((s1.take j).reverse) =
      if s1.getD (j - 1) ' ' ≠ s2.getD (i - 1) ' ' then
        min (min (lev ((s2.take (i - 1)).reverse) ((s1.take (j - 1)).reverse))
              (lev ((s2.take i).reverse) ((s1.take (j - 1)).reverse)))
          (lev ((s2.take (i - 1)).reverse) ((s1.take j).reverse)) + 1
      else lev ((s2.take (i - 1)).reverse) ((s1.take (j - 1)).reverse) := by
  obtain ⟨i', rfl⟩ : ∃ i', i = i' + 1 := ⟨i - 1, by omega⟩
  obtain ⟨j', rfl⟩ : ∃ j', j = j' + 1 := ⟨j - 1, by omega⟩
  simp only [Nat.add_sub_cancel]
  rw [take_reverse_cons (show i' < s2.length by omega),
      take_reverse_cons (show j' < s1.length by omega),
      lev_cons_cons]
  by_cases heq : s2.getD i' ' ' = s1.getD j' ' '
  · rw [if_pos heq, if_neg (fun hc => hc heq.symm)]
  · rw [if_neg heq, if_pos (fun hc => heq hc.symm)]
    omega

theorem getD_mix (new old : List ℕ) {k j : ℕ} (hk : k ≤ new.length) (hj : k ≤ j) :
    (new.take k ++ old.drop k).getD j 0 = old.getD j 0 := by
  rw [List.getD_eq_getElem?_getD, List.getD_eq_getElem?_getD]
  rw [List.getElem?_append_right (by rw [List.length_take]; omega)]
  rw [List.length_take, min_eq_left hk, List.getElem?_drop]
  have hidx : k + (j - k) = j := by omega
  rw [hidx]

theorem set_mix (new old : List ℕ) {k : ℕ} (hlen : old.length = new.length)
    (hk : k < new.length) :
    (new.take k ++ old.drop k).set k (new.getD k 0) = new.take (k + 1) ++ old.drop (k + 1) := by
  rw [List.set_append_right _ _ (by rw [List.length_take]; omega)]
  rw [List.length_take]
  have hmin : min k new.length = k := by omega
  rw [hmin, Nat.sub_self]
  rw [List.drop_eq_getElem_cons (by omega : k < old.length)]
  rw [List.set_cons_zero]
  rw [List.getD_eq_getElem?_getD, List.getElem?_eq_getElem hk]
  rw [List.take_succ, List.getElem?_eq_getElem hk]
  simp only [Option.toList_some, Option.getD_some, List.append_assoc, List.singleton_append]

theorem levInner_inv (s1 s2 : JStr) {i : ℕ} (hi1 : 1 ≤ i) (hi2 : i ≤ s2.length) :
    ∀ k, k ≤ s1.length →
      (List.range (k + 1)).foldl (levInnerStep s1 s2 i) (dpRow s1 s2 (i - 1), i) =
      ((dpRow s1 s2 i).take k ++ (dpRow s1 s2 (i - 1)).drop k, (dpRow s1 s2 i).getD k 0) := by
  intro k
  induction k with
  | zero =>
    intro _
    show levInnerStep s1 s2 i (dpRow s1 s2 (i - 1), i) 0 = _
    unfold levInnerStep
    rw [if_neg (by omega), if_neg (by omega)]
    rw [dpRow_zero_getD s1 s2 hi2]
    simp
  | succ k ih =>
    intro hk1
    rw [List.range_succ, List.foldl_append, ih (by omega)]
    show levInnerStep s1 s2 i _ (k + 1) = _
    unfold levInnerStep
    rw [if_neg (by omega), if_pos (by omega)]
    have hnl := dpRow_length s1 s2 i
    have hol := dpRow_length s1 s2 (i - 1)
    have hg1 : ((dpRow s1 s2 i).take k ++ (dpRow s1 s2 (i - 1)).drop k).getD (k + 1 - 1) 0 =
        (dpRow s1 s2 (i - 1)).getD k 0 :=
      getD_mix _ _ (by omega) (by omega)
    have hg2 : ((dpRow s1 s2 i).take k ++ (dpRow s1 s2 (i - 1)).drop k).getD (k + 1) 0 =
        (dpRow s1 s2 (i - 1)).getD (k + 1) 0 :=
      getD_mix _ _ (by omega) (by omega)
    dsimp only
    rw [hg1, hg2]
    have hset : jsSet ((dpRow s1 s2 i).take k ++ (dpRow s1 s2 (i - 1)).drop k) (k + 1 - 1)
        ((dpRow s1 s2 i).getD k 0) =
        (dpRow s1 s2 i).take (k + 1) ++ (dpRow s1 s2 (i - 1)).drop (k + 1) := by
      unfold jsSet
      rw [if_pos (by
        rw [List.length_append, List.length_take, List.length_drop]
        omega)]
      exact set_mix _ _ (by omega) (by omega)
    rw [hset]
    have hrec := dpRow_rec s1 s2 hi1 hi2 (show 1 ≤ k + 1 by omega) (show k + 1 ≤ s1.length by omega)
    rw [dpRow_getD s1 s2 i (show k + 1 ≤ s1.length by omega), hrec]
    have e1 : (dpRow s1 s2 (i - 1)).getD (k + 1 - 1) 0 =
        lev ((s2.take (i - 1)).reverse) ((s1.take (k + 1 - 1)).reverse) :=
      dpRow_getD s1 s2 (i - 1) (by omega)
    have e2 : (dpRow s1 s2 (i - 1)).getD (k + 1) 0 =
        lev ((s2.take (i - 1)).reverse) ((s1.take (k + 1)).reverse) :=
      dpRow_getD s1 s2 (i - 1) (by omega)
    have e3 : (dpRow s1 s2 i).getD k 0 =
        lev ((s2.take i).reverse) ((s1.take k).reverse) :=
      dpRow_getD s1 s2 i (by omega)
    simp only [Nat.add_sub_cancel] at e1 hrec ⊢
    rw [e1, e2, e3]

theorem levRow_zero (s1 s2 : JStr) : levRow s1 s2 [] 0 = dpRow s1 s2 0 := by
  unfold levRow
  rw [if_neg (by omega)]
  have hloop : ∀ k, (List.range k).foldl (levInnerStep s1 s2 0) (([] : List ℕ), 0) =
      (List.range k, 0) := by
    intro k
    induction k with
    | zero => rfl
    | succ k ih =>
      rw [List.range_succ, List.foldl_append, ih]
      show levInnerStep s1 s2 0 (List.range k, 0) k = _
      unfold levInnerStep
      rw [if_pos rfl]
      unfold jsSet
      rw [if_neg (by simp)]
  rw [hloop]
  show List.range (s1.length + 1) = dpRow s1 s2 0
  unfold dpRow
  have hcong : ∀ j ∈ List.range (s1.length + 1),
      lev ((s2.take 0).reverse) ((s1.take j).reverse) = j := by
    intro j hj
    rw [List.mem_range] at hj
    simp only [List.take_zero, List.reverse_nil]
    rw [lev_nil_left]
    simp only [List.length_reverse, List.length_take]
    omega
  rw [List.map_congr_left hcong]
  exact (List.map_id _).symm

theorem levRow_succ (s1 s2 : JStr) {i : ℕ} (hi1 : 1 ≤ i) (hi2 : i ≤ s2.length) :
    levRow s1 s2 (dpRow s1 s2 (i - 1)) i = dpRow s1 s2 i := by
  unfold levRow
  rw [if_pos (by omega)]
  rw [levInner_inv s1 s2 hi1 hi2 s1.length le_rfl]
  dsimp only
  have hnl := dpRow_length s1 s2 i
  have hol := dpRow_length s1 s2 (i - 1)
  unfold jsSet
  rw [if_pos (by
    rw [List.length_append, List.length_take, List.length_drop]
    omega)]
  rw [set_mix _ _ (by omega) (by omega)]
  rw [List.take_of_length_le (by omega), List.drop_eq_nil_of_le (by omega)]
  exact List.append_nil _

theorem levDP_outer (s1 s2 : JStr) : ∀ i, i ≤ s2.length →
    (List.range (i + 1)).foldl (levRow s1 s2) [] = dpRow s1 s2 i := by
  intro i
  induction i with
  | zero =>
    intro _
    show levRow s1 s2 [] 0 = _
    exact levRow_zero s1 s2
  | succ i ih =>
    intro hi
    rw [List.range_succ, List.foldl_append, ih (by omega)]
    show levRow s1 s2 (dpRow s1 s2 i) (i + 1) = _
    have h := levRow_succ s1 s2 (i := i + 1) (by omega) hi
    simpa using h

theorem levenshteinDistance_eq_lev (s1 s2 : JStr) :
    levenshteinDistance s1 s2 = lev s1 s2 := by
  unfold levenshteinDistance
  rw [levDP_outer s1 s2 s2.length le_rfl]
  rw [dpRow_getD s1 s2 _ le_rfl]
  rw [List.take_length, List.take_length]
  rw [lev_reverse]
  exact lev_symm s2 s1

/-- C5: `similarity(a,b)` equals `1 - d(a,b) / max(len a, len b)` where
`d` is the classic single-character insert/delete/substitute Levenshtein
distance (the rolling-array loop of `levenshteinDistance` computes
exactly that distance), and `similarity` of two empty strings is 1. -/
theorem C5_similarity_classic_levenshtein (a b : JStr) :
    similarity a b = 1 - (lev a b : ℚ) / ((max a.length b.length : ℕ) : ℚ) ∧
    similarity ([] : JStr) ([] : JStr) = 1 := by
  refine ⟨?_, by with_unfolding_all rfl⟩
  by_cases hab : a.length > b.length
  · simp only [similarity, if_pos hab]
    have ha0 : a.length ≠ 0 := by omega
    rw [if_neg ha0]
    rw [levenshteinDistance_eq_lev]
    have hmax : max a.length b.length = a.length := max_eq_left (by omega)
    rw [hmax]
    have hQ : ((a.length : ℕ) : ℚ) ≠ 0 := by exact_mod_cast ha0
    rw [sub_div, div_self hQ]
  · simp only [similarity, if_neg hab]
    by_cases hb0 : b.length = 0
    · have ha0 : a.length = 0 := by omega
      rw [if_pos hb0]
      have ha : a = [] := List.length_eq_zero.mp ha0
      have hb : b = [] := List.length_eq_zero.mp hb0
      subst ha hb
      norm_num [lev_nil_left]
    · rw [if_neg hb0]
      rw [levenshteinDistance_eq_lev, lev_symm b a]
      have hmax : max a.length b.length = b.length := max_eq_right (by omega)
      rw [hmax]
      have hQ : ((b.length : ℕ) : ℚ) ≠ 0 := by exact_mod_cast hb0
      rw [sub_div, div_self hQ]
